import Mathlib

/-!
# rmlib: relation-model notation, lexer, grammar and queries

A shallow embedding of `rmlib.go`.

* The Go structs `RelationDefinition`, `Attribute` and `ForeignKeyDefinition`
  become Lean structures; a nilable Go pointer (`*string`,
  `*ForeignKeyDefinition`) becomes an `Option`.
* The lexer is the regular expression handed to `lexer.Regexp` in
  `CreateParser`:
  `(\s+)|(?P<Ident>[a-zA-Z][a-zA-Z0-9]*)|(?P<Operators>->|[,()_])`.
  The regexp lexer matches it at the start of the remaining input, drops the
  match of the unnamed group, emits a token for a named group and reports
  an invalid token when nothing matches at the start.
* The grammar is the one written in the struct tags:
  `RelationDefinition := @Ident "(" @@ ("," @@)* ")"`,
  `Attribute := ("_" @Ident "_" | @Ident) ("->" @@)?`,
  `ForeignKeyDefinition := @Ident "(" @Ident ")"`.
  A quoted literal matches a token by its text, `@Ident` matches a token by
  its type.  The library looks one token ahead: the optional group and a
  round of the repetition are given up when they fail with at most one of
  their tokens taken, and the grammar goes on before that token; a failure
  after more tokens is the error of the parse.
* The library caps a repetition at `MaxIterations` rounds, 1000000, and
  panics when the cap is reached; `Parse` does not recover, so such a call
  returns nothing.  `Outcome` has a case for it.
* `Parse` lexes the whole input and then runs the grammar on the tokens, so
  an input with a character that starts no token is a lexical error.
* An input is a list of Unicode characters; every class of the regexp is
  ASCII, so any other character starts no token.
-/

namespace Rmlib

/-! ## Data model -/

/-- ForeignKeyDefinition is the definition of a foreign key. -/
structure ForeignKeyDefinition where
  RelationName : String
  Attribute : String
  deriving DecidableEq, Repr

/-- Attribute defines an attribute in a relation. -/
structure Attribute where
  PK : Option String
  AttrName : Option String
  FK : Option ForeignKeyDefinition
  deriving DecidableEq, Repr

/-- RelationDefinition is the root of a parsed relation definition. -/
structure RelationDefinition where
  Name : String
  Attributes : List Attribute
  deriving DecidableEq, Repr

/-- IsPK tests if the attribute is part of the primary key: `attr.PK != nil`. -/
def Attribute.IsPK (attr : Attribute) : Bool := attr.PK.isSome

/-- IsFK tests if the attribute is a foreign key: `attr.FK != nil`. -/
def Attribute.IsFK (attr : Attribute) : Bool := attr.FK.isSome

/-- Name returns the attribute name: `PK` when `IsPK`, else `AttrName`. -/
def Attribute.Name (attr : Attribute) : Option String :=
  if attr.IsPK then attr.PK else attr.AttrName

/-- GetPKAttributes: the loop appending every attribute with `IsPK` to `res`. -/
def RelationDefinition.GetPKAttributes (r : RelationDefinition) : List Attribute :=
  r.Attributes.foldl (fun res attr => if attr.IsPK then res ++ [attr] else res) []

/-- GetFKs: the loop appending every attribute with `IsFK` to `res`. -/
def RelationDefinition.GetFKs (r : RelationDefinition) : List Attribute :=
  r.Attributes.foldl (fun res attr => if attr.IsFK then res ++ [attr] else res) []

/-! ## Lexer -/

/-- The class `\s` of the regexp: tab, newline, form feed, carriage return, space. -/
def isSpace (c : Char) : Bool :=
  c.toNat = 9 || c.toNat = 10 || c.toNat = 12 || c.toNat = 13 || c.toNat = 32

/-- The class `[a-zA-Z]`. -/
def isLetter (c : Char) : Bool :=
  (97 ≤ c.toNat && c.toNat ≤ 122) || (65 ≤ c.toNat && c.toNat ≤ 90)

/-- The class `[a-zA-Z0-9]`. -/
def isAlnum (c : Char) : Bool :=
  isLetter c || (48 ≤ c.toNat && c.toNat ≤ 57)

/-- The class `[,()_]`. -/
def isPunct (c : Char) : Bool :=
  c = ',' || c = '(' || c = ')' || c = '_'

/-- The named groups of the regexp, which are the token types. -/
inductive TokenType where
  | Ident
  | Operators
  deriving DecidableEq, Repr

/-- A token: its type and its matched text.  The end of input is the end of
the token list. -/
structure Token where
  Kind : TokenType
  Value : String
  deriving DecidableEq, Repr

/-- One match of the regexp at the start of the input: `none` when nothing
matches there, else the token (`none` for the unnamed whitespace group) and
the rest of the input. -/
def matchRegexp : List Char → Option (Option Token × List Char)
  | [] => none
  | c :: cs =>
    if isSpace c then some (none, cs.dropWhile isSpace)
    else if isLetter c then
      some (some ⟨.Ident, String.mk (c :: cs.takeWhile isAlnum)⟩, cs.dropWhile isAlnum)
    else if c = '-' then
      match cs with
      | d :: cs1 => if d = '>' then some (some ⟨.Operators, "->"⟩, cs1) else none
      | [] => none
    else if isPunct c then some (some ⟨.Operators, String.mk [c]⟩, cs)
    else none

/-- The two kinds of failure of `Parse`: a lexical error carries the input
left at the character that starts no token, a grammar error carries the
tokens left at the token the grammar cannot take (empty at end of input). -/
inductive ParseError where
  | lex (rest : List Char)
  | grammar (rest : List Token)
  deriving DecidableEq, Repr

/-- Equality of results is decidable, so a parse can be compared with an
expected outcome. -/
instance instDecidableEqResult {ε α : Type} [DecidableEq ε] [DecidableEq α] :
    DecidableEq (Except ε α)
  | .ok a, .ok b => if h : a = b then isTrue (by rw [h]) else isFalse (by intro h1; cases h1; exact h rfl)
  | .error a, .error b =>
    if h : a = b then isTrue (by rw [h]) else isFalse (by intro h1; cases h1; exact h rfl)
  | .ok _, .error _ => isFalse (by intro h; cases h)
  | .error _, .ok _ => isFalse (by intro h; cases h)

/-- The token loop: one round per match of the regexp, until the input is
empty.  A round consumes at least one character, so as many rounds as the
input has characters are enough. -/
def lexLoop : Nat → List Char → Except ParseError (List Token)
  | _, [] => .ok []
  | 0, c :: cs => .error (.lex (c :: cs))
  | n + 1, c :: cs =>
    match matchRegexp (c :: cs) with
    | none => .error (.lex (c :: cs))
    | some (none, rest) => lexLoop n rest
    | some (some t, rest) => Except.map (List.cons t) (lexLoop n rest)

/-- All tokens of an input. -/
def tokenize (cs : List Char) : Except ParseError (List Token) :=
  lexLoop cs.length cs

/-! ## Grammar -/

/-- The node `@Ident`: take one token of type `Ident`. -/
def expectIdent : List Token → Except ParseError (String × List Token)
  | [] => .error (.grammar [])
  | t :: ts => if t.Kind = .Ident then .ok (t.Value, ts) else .error (.grammar (t :: ts))

/-- A quoted literal: take one token whose text is the literal. -/
def expectLiteral (s : String) : List Token → Except ParseError (List Token)
  | [] => .error (.grammar [])
  | t :: ts => if t.Value = s then .ok ts else .error (.grammar (t :: ts))

/-- The grammar of `ForeignKeyDefinition`: `@Ident "(" @Ident ")"`. -/
def parseForeignKeyDefinition (ts : List Token) :
    Except ParseError (ForeignKeyDefinition × List Token) :=
  match expectIdent ts with
  | .error e => .error e
  | .ok (rel, ts1) =>
    match expectLiteral "(" ts1 with
    | .error e => .error e
    | .ok ts2 =>
      match expectIdent ts2 with
      | .error e => .error e
      | .ok (attr, ts3) =>
        match expectLiteral ")" ts3 with
        | .error e => .error e
        | .ok ts4 => .ok (⟨rel, attr⟩, ts4)

/-- The name part of `Attribute`: `("_" @Ident "_" | @Ident)`, the first
capture into `PK`, the second into `AttrName`. -/
def parseAttributeName (ts : List Token) :
    Except ParseError (Option String × Option String × List Token) :=
  match ts with
  | [] => .error (.grammar [])
  | t :: ts1 =>
    if t.Value = "_" then
      match expectIdent ts1 with
      | .error e => .error e
      | .ok (n, ts2) =>
        match expectLiteral "_" ts2 with
        | .error e => .error e
        | .ok ts3 => .ok (some n, none, ts3)
    else
      match expectIdent (t :: ts1) with
      | .error e => .error e
      | .ok (n, ts2) => .ok (none, some n, ts2)

/-- The optional part of `Attribute`: `( "->" @@ )?`, captured into `FK`.
When `->` is not followed by an identifier the group fails with one token
taken: it is given up and nothing is taken. A later failure is an error. -/
def parseOptionalFK (ts : List Token) :
    Except ParseError (Option ForeignKeyDefinition × List Token) :=
  match ts with
  | [] => .ok (none, [])
  | t :: ts1 =>
    if t.Value = "->" then
      match expectIdent ts1 with
      | .error _ => .ok (none, t :: ts1)
      | .ok _ =>
        match parseForeignKeyDefinition ts1 with
        | .error e => .error e
        | .ok (fk, ts2) => .ok (some fk, ts2)
    else .ok (none, t :: ts1)

/-- The grammar of `Attribute`. -/
def parseAttribute (ts : List Token) : Except ParseError (Attribute × List Token) :=
  match parseAttributeName ts with
  | .error e => .error e
  | .ok (pk, name, ts1) =>
    match parseOptionalFK ts1 with
    | .error e => .error e
    | .ok (fk, ts2) => .ok (⟨pk, name, fk⟩, ts2)

/-- Whether an attribute takes its first token and more: an identifier, or
`_` followed by an identifier. Otherwise the attribute fails with no token
taken. -/
def attributeBegins : List Token → Bool
  | [] => false
  | t :: ts1 =>
    if t.Value = "_" then
      match expectIdent ts1 with
      | .error _ => false
      | .ok _ => true
    else decide (t.Kind = TokenType.Ident)

/-- The cap of the library on the rounds of a repetition. -/
def MaxIterations : Nat := 1000000

/-- What a call gives: a value, an error, or nothing because it panics. -/
inductive Outcome (α : Type) where
  | ok (v : α)
  | error (e : ParseError)
  | panic
  deriving DecidableEq, Repr

/-- The repetition `("," @@)*` of `RelationDefinition`, with the number of
rounds left under the cap: with none left the library panics. A round that
fails with only its comma taken is given up and the repetition ends before
the comma; a round that fails later is an error. -/
def parseMoreAttributes : Nat → List Token → Outcome (List Attribute × List Token)
  | 0, _ => .panic
  | _ + 1, [] => .ok ([], [])
  | n + 1, t :: ts =>
    if t.Value = "," then
      if attributeBegins ts then
        match parseAttribute ts with
        | .error e => .error e
        | .ok (a, ts1) =>
          match parseMoreAttributes n ts1 with
          | .ok (more, ts2) => .ok (a :: more, ts2)
          | .error e => .error e
          | .panic => .panic
      else .ok ([], t :: ts)
    else .ok ([], t :: ts)

/-- The grammar of `RelationDefinition`: `@Ident "(" @@ ("," @@)* ")"`. -/
def parseRelationDefinition (ts : List Token) :
    Outcome (RelationDefinition × List Token) :=
  match expectIdent ts with
  | .error e => .error e
  | .ok (name, ts1) =>
    match expectLiteral "(" ts1 with
    | .error e => .error e
    | .ok ts2 =>
      match parseAttribute ts2 with
      | .error e => .error e
      | .ok (a, ts3) =>
        match parseMoreAttributes MaxIterations ts3 with
        | .error e => .error e
        | .panic => .panic
        | .ok (more, ts4) =>
          match expectLiteral ")" ts4 with
          | .error e => .error e
          | .ok ts5 => .ok (⟨name, a :: more⟩, ts5)

/-- The parse of a whole token list: the root grammar, then no token may be
left over. -/
def parseTokens (ts : List Token) : Outcome RelationDefinition :=
  match parseRelationDefinition ts with
  | .error e => .error e
  | .panic => .panic
  | .ok (r, []) => .ok r
  | .ok (_, t :: rest) => .error (.grammar (t :: rest))

/-- Parse takes a string and tries to parse it into a RelationDefinition:
the relation and no error, or no relation and the error; or the call panics
in the library. -/
def Parse (s : String) : Outcome RelationDefinition :=
  match tokenize s.data with
  | .error e => .error e
  | .ok ts => parseTokens ts

/-! ## The notation, written out

The identifier rule, the well-formed trees and the text and token sequence
of a tree in the notation `Name(attr, ...)`: a primary key as `_n_`, a plain
attribute as `n`, a foreign key as ` -> Rel(attr)`. -/

/-- An identifier: a letter followed by letters and digits. -/
def isIdentifier (s : String) : Bool :=
  match s.data with
  | [] => false
  | c :: cs => isLetter c && cs.all isAlnum

/-- A foreign key whose two names are identifiers. -/
def ForeignKeyDefinition.wellFormed (fk : ForeignKeyDefinition) : Bool :=
  isIdentifier fk.RelationName && isIdentifier fk.Attribute

/-- An attribute with exactly one of `PK` and `AttrName` set, to an
identifier, and with a well-formed foreign key if it has one. -/
def Attribute.wellFormed (a : Attribute) : Bool :=
  (match a.PK, a.AttrName with
    | some n, none => isIdentifier n
    | none, some n => isIdentifier n
    | _, _ => false) &&
  (match a.FK with
    | none => true
    | some fk => fk.wellFormed)

/-- A relation whose name is an identifier and that has at least one
attribute, all of them well-formed. -/
def RelationDefinition.wellFormed (r : RelationDefinition) : Bool :=
  isIdentifier r.Name && !r.Attributes.isEmpty && r.Attributes.all Attribute.wellFormed

/-- The text of the name part of an attribute. -/
def writeAttributeName (a : Attribute) : List Char :=
  match a.PK, a.AttrName with
  | some n, _ => [ '_'] ++ n.data ++ [ '_']
  | none, some n => n.data
  | none, none => []

/-- The text of the foreign-key part of an attribute. -/
def writeFK : Option ForeignKeyDefinition → List Char
  | none => []
  | some fk => [ ' ', '-', '>', ' '] ++ fk.RelationName.data ++ [ '('] ++ fk.Attribute.data ++ [ ')']

/-- The text of an attribute. -/
def writeAttribute (a : Attribute) : List Char :=
  writeAttributeName a ++ writeFK a.FK

/-- The text of the attributes after the first, each after `, `. -/
def writeMoreAttributes : List Attribute → List Char
  | [] => []
  | a :: more => [ ',', ' '] ++ writeAttribute a ++ writeMoreAttributes more

/-- The text of the attribute list. -/
def writeAttributes : List Attribute → List Char
  | [] => []
  | a :: more => writeAttribute a ++ writeMoreAttributes more

/-- The text of a relation definition in the notation. -/
def RelationDefinition.write (r : RelationDefinition) : String :=
  String.mk (r.Name.data ++ [ '('] ++ writeAttributes r.Attributes ++ [ ')'])

/-- An identifier token. -/
def identToken (n : String) : Token := ⟨.Ident, n⟩

/-- An operator token. -/
def opToken (s : String) : Token := ⟨.Operators, s⟩

/-- The tokens of the name part of an attribute. -/
def attributeNameTokens (a : Attribute) : List Token :=
  match a.PK, a.AttrName with
  | some n, _ => [opToken "_", identToken n, opToken "_"]
  | none, some n => [identToken n]
  | none, none => []

/-- The tokens of the foreign-key part of an attribute. -/
def fkTokens : Option ForeignKeyDefinition → List Token
  | none => []
  | some fk =>
    [opToken "->", identToken fk.RelationName, opToken "(", identToken fk.Attribute, opToken ")"]

/-- The tokens of an attribute. -/
def attributeTokens (a : Attribute) : List Token :=
  attributeNameTokens a ++ fkTokens a.FK

/-- The tokens of the attributes after the first, each after a comma. -/
def moreAttributesTokens : List Attribute → List Token
  | [] => []
  | a :: more => opToken "," :: (attributeTokens a ++ moreAttributesTokens more)

/-- The tokens of the attribute list. -/
def attributesTokens : List Attribute → List Token
  | [] => []
  | a :: more => attributeTokens a ++ moreAttributesTokens more

/-- The tokens of a relation definition in the notation. -/
def relationTokens (r : RelationDefinition) : List Token :=
  identToken r.Name :: opToken "(" :: (attributesTokens r.Attributes ++ [opToken ")"])

/-- What the lexer can emit: an identifier token with an identifier as text,
or an operator token with one of the five operators as text. -/
def Token.valid (t : Token) : Bool :=
  match t.Kind with
  | .Ident => isIdentifier t.Value
  | .Operators =>
    t.Value = "->" || t.Value = "," || t.Value = "(" || t.Value = ")" || t.Value = "_"

/-- The last token, if any, is an operator. -/
def endsInOperator (ts : List Token) : Prop :=
  ∀ x ∈ ts.getLast?, x.Kind = TokenType.Operators

/-! ## Example trees -/

/-- The tree of the input of `main`:
`MyRelation(a -> OtherRelation(b),_b_,c,_d_ -> D(c))`. -/
def mainRelation : RelationDefinition :=
  ⟨"MyRelation",
    [⟨none, some "a", some ⟨"OtherRelation", "b"⟩⟩, ⟨some "b", none, none⟩,
     ⟨none, some "c", none⟩, ⟨some "d", none, some ⟨"D", "c"⟩⟩]⟩

/-- The tree of `R(_a_, b -> S(c))`. -/
def smallRelation : RelationDefinition :=
  ⟨"R", [⟨some "a", none, none⟩, ⟨none, some "b", some ⟨"S", "c"⟩⟩]⟩

/-- The tree of `R(_n_)`: one primary-key attribute `n`. -/
def singlePK (n : String) : RelationDefinition :=
  ⟨"R", [⟨some n, none, none⟩]⟩

/-- The tree of `R(_d_ -> T(e))`: one attribute that is a primary key and a
foreign key. -/
def keyAndReference (R d T e : String) : RelationDefinition :=
  ⟨R, [⟨some d, none, some ⟨T, e⟩⟩]⟩

/-- A relation `R` with one plain attribute `a` more than the cap on the
rounds of a repetition allows. -/
def manyAttributes : RelationDefinition :=
  ⟨"R", List.replicate (MaxIterations + 1) ⟨none, some "a", none⟩⟩

/-- A relation `K` with one primary-key attribute `k` more than the cap on
the rounds of a repetition allows. -/
def manyKeys : RelationDefinition :=
  ⟨"K", List.replicate (MaxIterations + 1) ⟨some "k", none, none⟩⟩

/-! ## The lexer as a relation, and texts made of token pieces -/

/-- The rounds of the lexer, as a relation between an input and its tokens:
a whitespace character is dropped; a letter with the letters and digits
after it, up to something that is neither, is an identifier token; `->` is
one operator token; each of `,`, `(`, `)`, `_` is an operator token. -/
inductive Lexes : List Char → List Token → Prop where
  | done : Lexes [] []
  | space (c : Char) (cs : List Char) (ts : List Token) :
      isSpace c = true → Lexes cs ts → Lexes (c :: cs) ts
  | ident (c : Char) (body rest : List Char) (ts : List Token) :
      isLetter c = true → (∀ x ∈ body, isAlnum x = true) →
      (∀ x ∈ rest.head?, isAlnum x = false) → Lexes rest ts →
      Lexes (c :: (body ++ rest)) (identToken (String.mk (c :: body)) :: ts)
  | arrow (cs : List Char) (ts : List Token) :
      Lexes cs ts → Lexes ('-' :: '>' :: cs) (opToken "->" :: ts)
  | punct (c : Char) (cs : List Char) (ts : List Token) :
      isPunct c = true → Lexes cs ts → Lexes (c :: cs) (opToken (String.mk [c]) :: ts)

/-- A piece of token text: a non-empty run of whitespace, an identifier, or
one of the operators `->`, `,`, `(`, `)`, `_`. -/
def isTokenPiece (p : List Char) : Bool :=
  (!p.isEmpty && p.all isSpace) || isIdentifier (String.mk p) ||
    p = [ '-', '>'] || p = [ ','] || p = [ '('] || p = [ ')'] || p = [ '_']

/-- A text that is a concatenation of whitespace runs, identifiers and
operators. -/
def tokenText (cs : List Char) : Prop :=
  ∃ pieces : List (List Char), cs = pieces.flatten ∧ ∀ p ∈ pieces, isTokenPiece p = true

/-! ## The lexer: rounds, whitespace, identifiers, operators -/

theorem isSpace_not_isAlnum {c : Char} (h : isSpace c = true) : isAlnum c = false := by
  simp only [isSpace, Bool.or_eq_true, decide_eq_true_eq] at h
  simp only [isAlnum, isLetter, Bool.or_eq_false_iff, Bool.and_eq_false_iff, decide_eq_false_iff_not]
  omega

theorem isSpace_not_isLetter {c : Char} (h : isSpace c = true) : isLetter c = false := by
  simp only [isSpace, Bool.or_eq_true, decide_eq_true_eq] at h
  simp only [isLetter, Bool.or_eq_false_iff, Bool.and_eq_false_iff, decide_eq_false_iff_not]
  omega

theorem isLetter_isAlnum {c : Char} (h : isLetter c = true) : isAlnum c = true := by
  simp [isAlnum, h]

theorem matchRegexp_length {cs : List Char} {t : Option Token} {rest : List Char}
    (h : matchRegexp cs = some (t, rest)) : rest.length < cs.length := by
  cases cs with
  | nil => simp [matchRegexp] at h
  | cons c cs =>
    have hd : ∀ p : Char → Bool, (cs.dropWhile p).length ≤ cs.length := fun p =>
      (List.dropWhile_sublist p).length_le
    simp only [matchRegexp] at h
    split at h
    · simp only [Option.some.injEq, Prod.mk.injEq] at h
      rw [← h.2]; simp only [List.length_cons]; have := hd isSpace; omega
    · split at h
      · simp only [Option.some.injEq, Prod.mk.injEq] at h
        rw [← h.2]; simp only [List.length_cons]; have := hd isAlnum; omega
      · split at h
        · cases cs with
          | nil => simp at h
          | cons d cs1 =>
            simp only at h
            split at h
            · simp only [Option.some.injEq, Prod.mk.injEq] at h
              rw [← h.2]; simp only [List.length_cons]; omega
            · simp at h
        · split at h
          · simp only [Option.some.injEq, Prod.mk.injEq] at h
            rw [← h.2]; simp
          · simp at h

theorem lexLoop_fuel (n : Nat) : ∀ (m : Nat) (cs : List Char), cs.length ≤ n → cs.length ≤ m →
    lexLoop n cs = lexLoop m cs := by
  induction n with
  | zero =>
    intro m cs h _
    have : cs = [] := List.length_eq_zero.mp (Nat.le_zero.mp h)
    subst this
    cases m <;> rfl
  | succ n ih =>
    intro m cs hn hm
    cases cs with
    | nil => cases m <;> rfl
    | cons c cs =>
      cases m with
      | zero => simp at hm
      | succ m =>
        simp only [lexLoop]
        cases hmr : matchRegexp (c :: cs) with
        | none => rfl
        | some p =>
          obtain ⟨t, rest⟩ := p
          have hl := matchRegexp_length hmr
          simp only [List.length_cons] at hl hn hm
          have e := ih m rest (by omega) (by omega)
          cases t with
          | none => exact e
          | some t => simp only [e]

/-- One round of the token loop, with the fuel out of sight. -/
theorem tokenize_cons (c : Char) (cs : List Char) :
    tokenize (c :: cs) =
      match matchRegexp (c :: cs) with
      | none => .error (.lex (c :: cs))
      | some (none, rest) => tokenize rest
      | some (some t, rest) => Except.map (List.cons t) (tokenize rest) := by
  simp only [tokenize, List.length_cons, lexLoop]
  cases hmr : matchRegexp (c :: cs) with
  | none => rfl
  | some p =>
    obtain ⟨t, rest⟩ := p
    have hl := matchRegexp_length hmr
    simp only [List.length_cons] at hl
    have e := lexLoop_fuel cs.length rest.length rest (by omega) (by omega)
    cases t with
    | none => exact e
    | some t => simp only [e]

@[simp] theorem tokenize_nil : tokenize [] = .ok [] := rfl

theorem tokenize_space {c : Char} (cs : List Char) (h : isSpace c = true) :
    tokenize (c :: cs) = tokenize cs := by
  have step : ∀ (d : Char) (ds : List Char), isSpace d = true →
      tokenize (d :: ds) = tokenize (ds.dropWhile isSpace) := by
    intro d ds hd
    rw [tokenize_cons]; simp [matchRegexp, hd]
  rw [step c cs h]
  cases cs with
  | nil => rfl
  | cons d ds =>
    by_cases hd : isSpace d = true
    · rw [step d ds hd, List.dropWhile_cons_of_pos hd]
    · rw [List.dropWhile_cons_of_neg hd]

theorem tokenize_spaces (ws cs : List Char) (h : ∀ c ∈ ws, isSpace c = true) :
    tokenize (ws ++ cs) = tokenize cs := by
  induction ws with
  | nil => rfl
  | cons w ws ih =>
    rw [List.cons_append, tokenize_space _ (h w (List.mem_cons_self _ _))]
    exact ih (fun c hc => h c (List.mem_cons_of_mem _ hc))

theorem takeWhile_dropWhile_append (p : Char → Bool) (body rest : List Char)
    (hb : ∀ x ∈ body, p x = true) (hr : ∀ x ∈ rest.head?, p x = false) :
    (body ++ rest).takeWhile p = body ∧ (body ++ rest).dropWhile p = rest := by
  induction body with
  | nil =>
    cases rest with
    | nil => simp
    | cons r rest =>
      have : p r = false := hr r (by simp)
      simp [List.takeWhile, List.dropWhile, this]
  | cons b body ih =>
    have hpb : p b = true := hb b (List.mem_cons_self _ _)
    have := ih (fun x hx => hb x (List.mem_cons_of_mem _ hx))
    simp [List.takeWhile, List.dropWhile, hpb, this]

theorem tokenize_letter_run (c : Char) (body rest : List Char) (hc : isLetter c = true)
    (hb : ∀ x ∈ body, isAlnum x = true) (hr : ∀ x ∈ rest.head?, isAlnum x = false) :
    tokenize (c :: (body ++ rest)) =
      Except.map (List.cons (identToken (String.mk (c :: body)))) (tokenize rest) := by
  have hs : isSpace c = false := by
    cases h : isSpace c with
    | false => rfl
    | true => rw [isSpace_not_isLetter h] at hc; cases hc
  obtain ⟨h1, h2⟩ := takeWhile_dropWhile_append isAlnum body rest hb hr
  rw [tokenize_cons]
  simp [matchRegexp, hs, hc, h1, h2, identToken]

theorem isIdentifier_data {n : String} (h : isIdentifier n = true) :
    ∃ c body, n.data = c :: body ∧ isLetter c = true ∧ ∀ x ∈ body, isAlnum x = true := by
  unfold isIdentifier at h
  cases hd : n.data with
  | nil => rw [hd] at h; cases h
  | cons c body =>
    rw [hd] at h
    simp only [Bool.and_eq_true, List.all_eq_true] at h
    exact ⟨c, body, rfl, h.1, h.2⟩

/-- An identifier followed by something that does not go on with a letter
or digit is lexed as one identifier token. -/
theorem tokenize_identifier (n : String) (rest : List Char) (h : isIdentifier n = true)
    (hr : ∀ x ∈ rest.head?, isAlnum x = false) :
    tokenize (n.data ++ rest) = Except.map (List.cons (identToken n)) (tokenize rest) := by
  obtain ⟨c, body, hd, hc, hb⟩ := isIdentifier_data h
  have hn : n = String.mk (c :: body) := by rw [← hd]
  rw [hd, List.cons_append, tokenize_letter_run c body rest hc hb hr, ← hn]

theorem tokenize_lparen (cs : List Char) :
    tokenize ('(' :: cs) = Except.map (List.cons (opToken "(")) (tokenize cs) := by
  rw [tokenize_cons]; rfl

theorem tokenize_rparen (cs : List Char) :
    tokenize (')' :: cs) = Except.map (List.cons (opToken ")")) (tokenize cs) := by
  rw [tokenize_cons]; rfl

theorem tokenize_comma (cs : List Char) :
    tokenize (',' :: cs) = Except.map (List.cons (opToken ",")) (tokenize cs) := by
  rw [tokenize_cons]; rfl

theorem tokenize_underscore (cs : List Char) :
    tokenize ('_' :: cs) = Except.map (List.cons (opToken "_")) (tokenize cs) := by
  rw [tokenize_cons]; rfl

theorem tokenize_arrow (cs : List Char) :
    tokenize ('-' :: '>' :: cs) = Except.map (List.cons (opToken "->")) (tokenize cs) := by
  rw [tokenize_cons]; rfl

theorem tokenize_blank (cs : List Char) : tokenize (' ' :: cs) = tokenize cs :=
  tokenize_space cs (by decide)

/-! ## The text of a well-formed tree lexes to its tokens -/

theorem tokenize_identifier_ok (n : String) (rest : List Char) (ts : List Token)
    (h : isIdentifier n = true) (hr : ∀ x ∈ rest.head?, isAlnum x = false)
    (ht : tokenize rest = .ok ts) :
    tokenize (n.data ++ rest) = .ok (identToken n :: ts) := by
  rw [tokenize_identifier n rest h hr, ht]; rfl

theorem tokenize_writeAttributeName (a : Attribute) (rest : List Char) (ts : List Token)
    (h : a.wellFormed = true) (hr : ∀ x ∈ rest.head?, isAlnum x = false)
    (ht : tokenize rest = .ok ts) :
    tokenize (writeAttributeName a ++ rest) = .ok (attributeNameTokens a ++ ts) := by
  obtain ⟨pk, name, fk⟩ := a
  simp only [Attribute.wellFormed, Bool.and_eq_true] at h
  cases pk with
  | none =>
    cases name with
    | none => simp at h
    | some n =>
      simp only [writeAttributeName, attributeNameTokens]
      exact tokenize_identifier_ok n rest ts h.1 hr ht
  | some n =>
    cases name with
    | some m => simp at h
    | none =>
      simp only [writeAttributeName, attributeNameTokens, List.append_assoc, List.cons_append,
        List.nil_append]
      rw [tokenize_underscore,
        tokenize_identifier_ok n ('_' :: rest) (opToken "_" :: ts) h.1 (by simp; decide)
          (by rw [tokenize_underscore, ht]; rfl)]
      rfl

theorem tokenize_writeFK (fk : Option ForeignKeyDefinition) (rest : List Char) (ts : List Token)
    (h : ∀ d, fk = some d → d.wellFormed = true) (ht : tokenize rest = .ok ts) :
    tokenize (writeFK fk ++ rest) = .ok (fkTokens fk ++ ts) := by
  cases fk with
  | none => simpa [writeFK, fkTokens] using ht
  | some d =>
    have hd := h d rfl
    simp only [ForeignKeyDefinition.wellFormed, Bool.and_eq_true] at hd
    simp only [writeFK, fkTokens, List.append_assoc, List.cons_append, List.nil_append]
    rw [tokenize_blank, tokenize_arrow, tokenize_blank,
      tokenize_identifier_ok d.RelationName _ (opToken "(" :: identToken d.Attribute :: opToken ")" :: ts)
        hd.1 (by simp; decide)
        (by
          rw [tokenize_lparen,
            tokenize_identifier_ok d.Attribute _ (opToken ")" :: ts) hd.2 (by simp; decide)
              (by rw [tokenize_rparen, ht]; rfl)]
          rfl)]
    rfl

theorem writeFK_head (fk : Option ForeignKeyDefinition) (rest : List Char)
    (hr : ∀ x ∈ rest.head?, isAlnum x = false) :
    ∀ x ∈ (writeFK fk ++ rest).head?, isAlnum x = false := by
  cases fk with
  | none => simpa [writeFK] using hr
  | some d => simp [writeFK]; decide

theorem Attribute.wellFormed_fk {a : Attribute} (h : a.wellFormed = true) :
    ∀ d, a.FK = some d → d.wellFormed = true := by
  intro d hd
  simp only [Attribute.wellFormed, Bool.and_eq_true, hd] at h
  exact h.2

theorem tokenize_writeAttribute (a : Attribute) (rest : List Char) (ts : List Token)
    (h : a.wellFormed = true) (hr : ∀ x ∈ rest.head?, isAlnum x = false)
    (ht : tokenize rest = .ok ts) :
    tokenize (writeAttribute a ++ rest) = .ok (attributeTokens a ++ ts) := by
  simp only [writeAttribute, attributeTokens, List.append_assoc]
  exact tokenize_writeAttributeName a _ _ h (writeFK_head a.FK rest hr)
    (tokenize_writeFK a.FK rest ts (Attribute.wellFormed_fk h) ht)

theorem tokenize_writeMoreAttributes (more : List Attribute) (rest : List Char)
    (ts : List Token) (h : ∀ a ∈ more, a.wellFormed = true)
    (hr : ∀ x ∈ rest.head?, isAlnum x = false) (ht : tokenize rest = .ok ts) :
    tokenize (writeMoreAttributes more ++ rest) = .ok (moreAttributesTokens more ++ ts) := by
  induction more with
  | nil => simpa [writeMoreAttributes, moreAttributesTokens] using ht
  | cons a more ih =>
    have ih1 := ih (fun b hb => h b (List.mem_cons_of_mem _ hb))
    have hhead : ∀ x ∈ (writeMoreAttributes more ++ rest).head?, isAlnum x = false := by
      cases more with
      | nil => simpa [writeMoreAttributes] using hr
      | cons b more => simp [writeMoreAttributes]; decide
    simp only [writeMoreAttributes, moreAttributesTokens, List.append_assoc, List.cons_append,
      List.nil_append]
    rw [tokenize_comma, tokenize_blank,
      tokenize_writeAttribute a _ _ (h a (List.mem_cons_self _ _)) hhead ih1]
    rfl

theorem RelationDefinition.wellFormed_iff (r : RelationDefinition) :
    r.wellFormed = true ↔
      isIdentifier r.Name = true ∧ r.Attributes ≠ [] ∧ ∀ a ∈ r.Attributes, a.wellFormed = true := by
  simp only [RelationDefinition.wellFormed, Bool.and_eq_true, Bool.not_eq_true',
    List.isEmpty_eq_false, List.all_eq_true, and_assoc]

/-- The text of a well-formed tree lexes to its token sequence. -/
theorem tokenize_write (r : RelationDefinition) (h : r.wellFormed = true) :
    tokenize r.write.data = .ok (relationTokens r) := by
  obtain ⟨name, attrs⟩ := r
  obtain ⟨hn, hne, hall⟩ := (RelationDefinition.wellFormed_iff _).mp h
  cases attrs with
  | nil => exact absurd rfl hne
  | cons a more =>
    simp only [RelationDefinition.write, relationTokens, writeAttributes, attributesTokens,
      List.append_assoc, List.cons_append, List.nil_append]
    have hmore := tokenize_writeMoreAttributes more [ ')'] [opToken ")"]
      (fun b hb => hall b (List.mem_cons_of_mem _ hb)) (by simp; decide)
      (by rw [tokenize_rparen]; rfl)
    have hhead : ∀ x ∈ (writeMoreAttributes more ++ [ ')']).head?, isAlnum x = false := by
      cases more with
      | nil => simp [writeMoreAttributes]; decide
      | cons b more => simp [writeMoreAttributes]; decide
    have hattr := tokenize_writeAttribute a _ _ (hall a (List.mem_cons_self _ _)) hhead hmore
    rw [tokenize_identifier_ok name _ (opToken "(" :: (attributeTokens a ++
      (moreAttributesTokens more ++ [opToken ")"]))) hn (by simp; decide)
      (by rw [tokenize_lparen, hattr]; rfl)]

/-! ## What the lexer emits, and lexing a text followed by another -/

theorem matchRegexp_valid {cs : List Char} {t : Token} {rest : List Char}
    (h : matchRegexp cs = some (some t, rest)) : t.valid = true := by
  cases cs with
  | nil => simp [matchRegexp] at h
  | cons c cs =>
    simp only [matchRegexp] at h
    split at h
    · simp at h
    · split at h
      · rename_i hl
        simp only [Option.some.injEq, Prod.mk.injEq] at h
        rw [← h.1]
        simp only [Token.valid, isIdentifier, hl, Bool.true_and, List.all_eq_true]
        intro x hx
        exact (List.mem_takeWhile_imp hx)
      · split at h
        · cases cs with
          | nil => simp at h
          | cons d cs1 =>
            simp only at h
            split at h
            · simp only [Option.some.injEq, Prod.mk.injEq] at h
              rw [← h.1]; decide
            · simp at h
        · split at h
          · rename_i hp
            simp only [Option.some.injEq, Prod.mk.injEq] at h
            rw [← h.1]
            simp only [isPunct, Bool.or_eq_true, decide_eq_true_eq] at hp
            rcases hp with ((hp | hp) | hp) | hp <;> subst hp <;> decide
          · simp at h

theorem Except.map_eq_ok {ε α β : Type} {f : α → β} {x : Except ε α} {b : β}
    (h : Except.map f x = .ok b) : ∃ a, x = .ok a ∧ b = f a := by
  cases x with
  | error e => cases h
  | ok a => exact ⟨a, rfl, by cases h; rfl⟩

theorem lexLoop_valid (n : Nat) : ∀ (cs : List Char) (ts : List Token),
    lexLoop n cs = .ok ts → ∀ t ∈ ts, t.valid = true := by
  induction n with
  | zero =>
    intro cs ts h
    cases cs with
    | nil => cases h; simp
    | cons c cs => cases h
  | succ n ih =>
    intro cs ts h
    cases cs with
    | nil => cases h; simp
    | cons c cs =>
      simp only [lexLoop] at h
      cases hmr : matchRegexp (c :: cs) with
      | none => rw [hmr] at h; cases h
      | some p =>
        obtain ⟨t, rest⟩ := p
        rw [hmr] at h
        cases t with
        | none => exact ih rest ts h
        | some t =>
          obtain ⟨ts1, h1, h2⟩ := Except.map_eq_ok h
          subst h2
          intro x hx
          rcases List.mem_cons.mp hx with hx | hx
          · rw [hx]; exact matchRegexp_valid hmr
          · exact ih rest ts1 h1 x hx

/-- Every token the lexer emits is an identifier token with an identifier
as text or an operator token with an operator as text. -/
theorem tokenize_valid {cs : List Char} {ts : List Token} (h : tokenize cs = .ok ts) :
    ∀ t ∈ ts, t.valid = true :=
  lexLoop_valid cs.length cs ts h

theorem endsInOperator_tail {t : Token} {ts : List Token} (h : endsInOperator (t :: ts)) :
    endsInOperator ts := by
  cases ts with
  | nil => intro x hx; simp at hx
  | cons u us => simpa [endsInOperator, List.getLast?_cons_cons] using h

theorem Except.map_cons_append {ε : Type} (t : Token) (ts : List Token)
    (x : Except ε (List Token)) :
    Except.map (List.cons t) (Except.map (fun l => ts ++ l) x) =
      Except.map (fun l => (t :: ts) ++ l) x := by
  cases x <;> rfl

theorem tokenize_append_aux (t : List Char) (n : Nat) : ∀ (s : List Char) (ts : List Token),
    s.length ≤ n → tokenize s = .ok ts → endsInOperator ts →
    tokenize (s ++ t) = Except.map (fun l => ts ++ l) (tokenize t) := by
  induction n with
  | zero =>
    intro s ts hn h _
    have : s = [] := List.length_eq_zero.mp (Nat.le_zero.mp hn)
    subst this
    cases h
    rw [List.nil_append]
    cases tokenize t <;> rfl
  | succ n ih =>
    intro s ts hn h hend
    cases s with
    | nil =>
      cases h
      rw [List.nil_append]
      cases tokenize t <;> rfl
    | cons c cs =>
      simp only [List.length_cons] at hn
      by_cases hs : isSpace c = true
      · rw [tokenize_space cs hs] at h
        rw [List.cons_append, tokenize_space _ hs]
        exact ih cs ts (by omega) h hend
      by_cases hl : isLetter c = true
      · rw [tokenize_cons] at h
        simp only [matchRegexp, hs, hl, if_true, Bool.false_eq_true, if_false] at h
        obtain ⟨ts1, h1, h2⟩ := Except.map_eq_ok h
        subst h2
        have hend1 := endsInOperator_tail hend
        cases hd : cs.dropWhile isAlnum with
        | nil =>
          rw [hd] at h1
          cases h1
          have := hend _ rfl
          cases this
        | cons d ds =>
          have hdn : isAlnum d = false := by
            have := List.head_dropWhile_not isAlnum cs (by rw [hd]; simp)
            simpa [hd] using this
          have hsplit : cs = cs.takeWhile isAlnum ++ d :: ds := by
            rw [← hd, List.takeWhile_append_dropWhile]
          have hlen : (d :: ds).length ≤ n := by
            have := (List.dropWhile_sublist isAlnum (l := cs)).length_le
            rw [hd] at this; omega
          rw [hd] at h1
          have e := ih (d :: ds) ts1 hlen h1 hend1
          have e2 : c :: cs ++ t = c :: (cs.takeWhile isAlnum ++ (d :: ds ++ t)) := by
            rw [List.cons_append, ← List.append_assoc, ← hsplit]
          rw [e2, tokenize_letter_run c _ _ hl (fun x hx => List.mem_takeWhile_imp hx)
            (by simpa using hdn), e, Except.map_cons_append]
          rfl
      by_cases hm : c = '-'
      · subst hm
        cases cs with
        | nil =>
          rw [tokenize_cons] at h
          simp [matchRegexp, hs, hl] at h
        | cons d cs1 =>
          by_cases hg : d = '>'
          · subst hg
            rw [tokenize_arrow] at h
            obtain ⟨ts1, h1, h2⟩ := Except.map_eq_ok h
            subst h2
            simp only [List.length_cons] at hn
            have e := ih cs1 ts1 (by omega) h1 (endsInOperator_tail hend)
            rw [List.cons_append, List.cons_append, tokenize_arrow, e, Except.map_cons_append]
          · rw [tokenize_cons] at h
            simp [matchRegexp, hs, hl, hg] at h
      by_cases hp : isPunct c = true
      · rw [tokenize_cons] at h
        simp only [matchRegexp, hs, hl, hm, hp, if_true, Bool.false_eq_true, if_false] at h
        obtain ⟨ts1, h1, h2⟩ := Except.map_eq_ok h
        subst h2
        have e := ih cs ts1 (by omega) h1 (endsInOperator_tail hend)
        rw [List.cons_append, tokenize_cons]
        simp only [matchRegexp, hs, hl, hm, hp, if_true, Bool.false_eq_true, if_false]
        rw [e, Except.map_cons_append]
      · rw [tokenize_cons] at h
        simp [matchRegexp, hs, hl, hm, hp] at h

/-- A text whose last token is an operator, followed by another text, lexes
to the tokens of the first followed by the tokens of the second. -/
theorem tokenize_append (s t : List Char) (ts : List Token) (h : tokenize s = .ok ts)
    (hend : endsInOperator ts) :
    tokenize (s ++ t) = Except.map (fun l => ts ++ l) (tokenize t) :=
  tokenize_append_aux t s.length s ts (Nat.le_refl _) h hend

/-! ## The lexer as a relation -/

theorem tokenize_of_Lexes {cs : List Char} {ts : List Token} (h : Lexes cs ts) :
    tokenize cs = .ok ts := by
  induction h with
  | done => rfl
  | space c cs ts hc _ ih => rw [tokenize_space cs hc, ih]
  | ident c body rest ts hc hb hr _ ih =>
    rw [tokenize_letter_run c body rest hc hb hr, ih]; rfl
  | arrow cs ts _ ih => rw [tokenize_arrow, ih]; rfl
  | punct c cs ts hc _ ih =>
    have hs : isSpace c = false := by
      simp only [isPunct, Bool.or_eq_true, decide_eq_true_eq] at hc
      rcases hc with ((hc | hc) | hc) | hc <;> subst hc <;> decide
    have hl : isLetter c = false := by
      simp only [isPunct, Bool.or_eq_true, decide_eq_true_eq] at hc
      rcases hc with ((hc | hc) | hc) | hc <;> subst hc <;> decide
    have hm : c ≠ '-' := by
      simp only [isPunct, Bool.or_eq_true, decide_eq_true_eq] at hc
      rcases hc with ((hc | hc) | hc) | hc <;> subst hc <;> decide
    rw [tokenize_cons]
    simp only [matchRegexp, hs, hl, hm, hc, if_true, Bool.false_eq_true, if_false]
    rw [ih]; rfl

/-- The cases of one round of the lexer on an input that lexes. -/
theorem tokenize_cons_ok {c : Char} {cs : List Char} {ts : List Token}
    (h : tokenize (c :: cs) = .ok ts) :
    (isSpace c = true ∧ tokenize cs = .ok ts) ∨
    (isLetter c = true ∧ ∃ ts1, tokenize (cs.dropWhile isAlnum) = .ok ts1 ∧
      ts = identToken (String.mk (c :: cs.takeWhile isAlnum)) :: ts1) ∨
    (c = '-' ∧ ∃ cs1 ts1, cs = '>' :: cs1 ∧ tokenize cs1 = .ok ts1 ∧ ts = opToken "->" :: ts1) ∨
    (isPunct c = true ∧ ∃ ts1, tokenize cs = .ok ts1 ∧ ts = opToken (String.mk [c]) :: ts1) := by
  by_cases hs : isSpace c = true
  · rw [tokenize_space cs hs] at h
    exact Or.inl ⟨hs, h⟩
  by_cases hl : isLetter c = true
  · rw [tokenize_cons] at h
    simp only [matchRegexp, hs, hl, if_true, Bool.false_eq_true, if_false] at h
    obtain ⟨ts1, h1, h2⟩ := Except.map_eq_ok h
    exact Or.inr (Or.inl ⟨hl, ts1, h1, h2⟩)
  by_cases hm : c = '-'
  · subst hm
    cases cs with
    | nil =>
      rw [tokenize_cons] at h
      simp [matchRegexp, hs, hl] at h
    | cons d cs1 =>
      by_cases hg : d = '>'
      · subst hg
        rw [tokenize_arrow] at h
        obtain ⟨ts1, h1, h2⟩ := Except.map_eq_ok h
        exact Or.inr (Or.inr (Or.inl ⟨rfl, cs1, ts1, rfl, h1, h2⟩))
      · rw [tokenize_cons] at h
        simp [matchRegexp, hs, hl, hg] at h
  by_cases hp : isPunct c = true
  · rw [tokenize_cons] at h
    simp only [matchRegexp, hs, hl, hm, hp, if_true, Bool.false_eq_true, if_false] at h
    obtain ⟨ts1, h1, h2⟩ := Except.map_eq_ok h
    exact Or.inr (Or.inr (Or.inr ⟨hp, ts1, h1, h2⟩))
  · rw [tokenize_cons] at h
    simp [matchRegexp, hs, hl, hm, hp] at h

theorem Lexes_of_tokenize_aux (n : Nat) : ∀ (cs : List Char) (ts : List Token),
    cs.length ≤ n → tokenize cs = .ok ts → Lexes cs ts := by
  induction n with
  | zero =>
    intro cs ts hn h
    have : cs = [] := List.length_eq_zero.mp (Nat.le_zero.mp hn)
    subst this
    cases h
    exact Lexes.done
  | succ n ih =>
    intro cs ts hn h
    cases cs with
    | nil => cases h; exact Lexes.done
    | cons c cs =>
      simp only [List.length_cons] at hn
      rcases tokenize_cons_ok h with ⟨hs, h1⟩ | ⟨hl, ts1, h1, h2⟩ | ⟨hm, cs1, ts1, hc, h1, h2⟩ |
        ⟨hp, ts1, h1, h2⟩
      · exact Lexes.space c cs ts hs (ih cs ts (by omega) h1)
      · subst h2
        have hlen := (List.dropWhile_sublist isAlnum (l := cs)).length_le
        have hrest := ih (cs.dropWhile isAlnum) ts1 (by omega) h1
        have hhead : ∀ x ∈ (cs.dropWhile isAlnum).head?, isAlnum x = false := by
          intro x hx
          have := List.head?_dropWhile_not isAlnum cs
          rw [Option.mem_def.mp hx] at this
          simpa using this
        have := Lexes.ident c (cs.takeWhile isAlnum) (cs.dropWhile isAlnum) ts1 hl
          (fun x hx => List.mem_takeWhile_imp hx) hhead hrest
        rwa [List.takeWhile_append_dropWhile] at this
      · subst hm; subst hc; subst h2
        simp only [List.length_cons] at hn
        exact Lexes.arrow cs1 ts1 (ih cs1 ts1 (by omega) h1)
      · subst h2
        exact Lexes.punct c cs ts1 hp (ih cs ts1 (by omega) h1)

/-- The lexer returns the tokens `ts` on `cs` exactly when `cs` and `ts` are
related by the rounds of `Lexes`. -/
theorem tokenize_iff_Lexes (cs : List Char) (ts : List Token) :
    tokenize cs = .ok ts ↔ Lexes cs ts :=
  ⟨Lexes_of_tokenize_aux cs.length cs ts (Nat.le_refl _), tokenize_of_Lexes⟩

/-- A failure of the lexer is a lexical error, at a non-empty rest of the
input where the regexp does not match. -/
theorem lexLoop_error (n : Nat) : ∀ (cs : List Char) (e : ParseError),
    cs.length ≤ n → lexLoop n cs = .error e →
    ∃ rest, e = .lex rest ∧ rest ≠ [] ∧ matchRegexp rest = none ∧ rest <:+ cs := by
  induction n with
  | zero =>
    intro cs e hn h
    have : cs = [] := List.length_eq_zero.mp (Nat.le_zero.mp hn)
    subst this
    cases h
  | succ n ih =>
    intro cs e hn h
    cases cs with
    | nil => cases h
    | cons c cs =>
      simp only [lexLoop] at h
      cases hmr : matchRegexp (c :: cs) with
      | none =>
        rw [hmr] at h
        cases h
        exact ⟨c :: cs, rfl, by simp, hmr, List.suffix_refl _⟩
      | some p =>
        obtain ⟨t, rest⟩ := p
        rw [hmr] at h
        have hl := matchRegexp_length hmr
        simp only [List.length_cons] at hl hn
        have hsuf : rest <:+ c :: cs := by
          cases t with
          | none =>
            simp only [matchRegexp] at hmr
            split at hmr
            · simp only [Option.some.injEq, Prod.mk.injEq, true_and] at hmr
              rw [← hmr]
              exact (List.dropWhile_suffix _).trans (List.suffix_cons _ _)
            · split at hmr
              · simp at hmr
              · split at hmr
                · cases cs with
                  | nil => simp at hmr
                  | cons d cs1 =>
                    simp only at hmr
                    split at hmr <;> simp at hmr
                · split at hmr <;> simp at hmr
          | some t =>
            simp only [matchRegexp] at hmr
            split at hmr
            · simp at hmr
            · split at hmr
              · simp only [Option.some.injEq, Prod.mk.injEq] at hmr
                rw [← hmr.2]
                exact (List.dropWhile_suffix _).trans (List.suffix_cons _ _)
              · split at hmr
                · cases cs with
                  | nil => simp at hmr
                  | cons d cs1 =>
                    simp only at hmr
                    split at hmr
                    · simp only [Option.some.injEq, Prod.mk.injEq] at hmr
                      rw [← hmr.2]
                      exact (List.suffix_cons _ _).trans (List.suffix_cons _ _)
                    · simp at hmr
                · split at hmr
                  · simp only [Option.some.injEq, Prod.mk.injEq] at hmr
                    rw [← hmr.2]
                    exact List.suffix_cons _ _
                  · simp at hmr
        cases t with
        | none =>
          obtain ⟨r, h1, h2, h3, h4⟩ := ih rest e (by omega) h
          exact ⟨r, h1, h2, h3, h4.trans hsuf⟩
        | some t =>
          simp only at h
          cases hrec : lexLoop n rest with
          | ok ts => rw [hrec] at h; cases h
          | error e1 =>
            rw [hrec] at h
            have he : e1 = e := Except.error.inj h
            subst he
            obtain ⟨r, h1, h2, h3, h4⟩ := ih rest e1 (by omega) hrec
            exact ⟨r, h1, h2, h3, h4.trans hsuf⟩

theorem tokenize_error {cs : List Char} {e : ParseError} (h : tokenize cs = .error e) :
    ∃ rest, e = .lex rest ∧ rest ≠ [] ∧ matchRegexp rest = none ∧ rest <:+ cs :=
  lexLoop_error cs.length cs e (Nat.le_refl _) h

/-! ## Texts made of token pieces are the texts that lex -/

theorem isTokenPiece_cases {p : List Char} (h : isTokenPiece p = true) :
    (∃ w ws, p = w :: ws ∧ ∀ x ∈ w :: ws, isSpace x = true) ∨
    (∃ c body, p = c :: body ∧ isLetter c = true ∧ ∀ x ∈ body, isAlnum x = true) ∨
    p = [ '-', '>'] ∨ (∃ c, p = [c] ∧ isPunct c = true) := by
  simp only [isTokenPiece, Bool.or_eq_true, Bool.and_eq_true, Bool.not_eq_true',
    decide_eq_true_eq, List.all_eq_true] at h
  rcases h with (((((h | h) | h) | h) | h) | h) | h
  · cases p with
    | nil => simp at h
    | cons w ws => exact Or.inl ⟨w, ws, rfl, h.2⟩
  · obtain ⟨c, body, hd, hc, hb⟩ := isIdentifier_data h
    exact Or.inr (Or.inl ⟨c, body, hd, hc, hb⟩)
  · exact Or.inr (Or.inr (Or.inl h))
  · exact Or.inr (Or.inr (Or.inr ⟨',', h, by decide⟩))
  · exact Or.inr (Or.inr (Or.inr ⟨'(', h, by decide⟩))
  · exact Or.inr (Or.inr (Or.inr ⟨')', h, by decide⟩))
  · exact Or.inr (Or.inr (Or.inr ⟨'_', h, by decide⟩))

theorem isPunct_not_isAlnum {c : Char} (h : isPunct c = true) : isAlnum c = false := by
  simp only [isPunct, Bool.or_eq_true, decide_eq_true_eq] at h
  rcases h with ((h | h) | h) | h <;> subst h <;> decide

theorem isPunct_token {c : Char} (h : isPunct c = true) :
    isSpace c = false ∧ isLetter c = false ∧ c ≠ '-' := by
  simp only [isPunct, Bool.or_eq_true, decide_eq_true_eq] at h
  rcases h with ((h | h) | h) | h <;> subst h <;> decide

theorem tokenText_of_Lexes {cs : List Char} {ts : List Token} (h : Lexes cs ts) :
    tokenText cs := by
  induction h with
  | done => exact ⟨[], rfl, by simp⟩
  | space c cs ts hc _ ih =>
    obtain ⟨ps, e, hp⟩ := ih
    refine ⟨[c] :: ps, by simp [e], ?_⟩
    intro p hmem
    rcases List.mem_cons.mp hmem with hmem | hmem
    · subst hmem; simp [isTokenPiece, hc]
    · exact hp p hmem
  | ident c body rest ts hc hb _ _ ih =>
    obtain ⟨ps, e, hp⟩ := ih
    refine ⟨(c :: body) :: ps, by simp [e], ?_⟩
    intro p hmem
    rcases List.mem_cons.mp hmem with hmem | hmem
    · subst hmem
      have : isIdentifier (String.mk (c :: body)) = true := by
        simp only [isIdentifier, hc, Bool.true_and, List.all_eq_true]
        exact hb
      simp [isTokenPiece, this]
    · exact hp p hmem
  | arrow cs ts _ ih =>
    obtain ⟨ps, e, hp⟩ := ih
    refine ⟨[ '-', '>'] :: ps, by simp [e], ?_⟩
    intro p hmem
    rcases List.mem_cons.mp hmem with hmem | hmem
    · subst hmem; decide
    · exact hp p hmem
  | punct c cs ts hc _ ih =>
    obtain ⟨ps, e, hp⟩ := ih
    refine ⟨[c] :: ps, by simp [e], ?_⟩
    intro p hmem
    rcases List.mem_cons.mp hmem with hmem | hmem
    · subst hmem
      simp only [isPunct, Bool.or_eq_true, decide_eq_true_eq] at hc
      rcases hc with ((hc | hc) | hc) | hc <;> subst hc <;> decide
    · exact hp p hmem

theorem dropWhile_isAlnum_pieces (ps : List (List Char))
    (hp : ∀ p ∈ ps, isTokenPiece p = true) : tokenText (ps.flatten.dropWhile isAlnum) := by
  induction ps with
  | nil => exact ⟨[], rfl, by simp⟩
  | cons p ps ih =>
    have same : ∀ (x : Char) (xs : List Char), p = x :: xs → isAlnum x = false →
        tokenText ((p :: ps).flatten.dropWhile isAlnum) := by
      intro x xs e hx
      subst e
      refine ⟨(x :: xs) :: ps, ?_, hp⟩
      simp [List.dropWhile, hx]
    rcases isTokenPiece_cases (hp p (List.mem_cons_self _ _)) with
      ⟨w, ws, e, hw⟩ | ⟨c, body, e, hc, hb⟩ | e | ⟨c, e, hc⟩
    · exact same w ws e (isSpace_not_isAlnum (hw w (List.mem_cons_self _ _)))
    · have hall : ∀ x ∈ p, isAlnum x = true := by
        intro x hx
        rw [e] at hx
        rcases List.mem_cons.mp hx with hx | hx
        · rw [hx]; exact isLetter_isAlnum hc
        · exact hb x hx
      rw [List.flatten_cons, List.dropWhile_append_of_pos hall]
      exact ih (fun q hq => hp q (List.mem_cons_of_mem _ hq))
    · exact same '-' [ '>'] e (by decide)
    · exact same c [] e (isPunct_not_isAlnum hc)

theorem tokenize_pieces (n : Nat) : ∀ ps : List (List Char), ps.flatten.length ≤ n →
    (∀ p ∈ ps, isTokenPiece p = true) → ∃ ts, tokenize ps.flatten = .ok ts := by
  induction n with
  | zero =>
    intro ps hn _
    have : ps.flatten = [] := List.length_eq_zero.mp (Nat.le_zero.mp hn)
    rw [this]
    exact ⟨[], rfl⟩
  | succ n ih =>
    intro ps hn hp
    cases ps with
    | nil => exact ⟨[], rfl⟩
    | cons p ps =>
      have hps : ∀ q ∈ ps, isTokenPiece q = true := fun q hq => hp q (List.mem_cons_of_mem _ hq)
      rw [List.flatten_cons] at hn ⊢
      rw [List.length_append] at hn
      rcases isTokenPiece_cases (hp p (List.mem_cons_self _ _)) with
        ⟨w, ws, e, hw⟩ | ⟨c, body, e, hc, hb⟩ | e | ⟨c, e, hc⟩
      · subst e
        rw [tokenize_spaces _ _ hw]
        simp only [List.length_cons] at hn
        exact ih ps (by omega) hps
      · subst e
        simp only [List.length_cons] at hn
        have hs : isSpace c = false := by
          cases h : isSpace c with
          | false => rfl
          | true => rw [isSpace_not_isLetter h] at hc; cases hc
        obtain ⟨qs, eq, hq⟩ := dropWhile_isAlnum_pieces ps hps
        have hdrop : (body ++ ps.flatten).dropWhile isAlnum = qs.flatten := by
          rw [List.dropWhile_append_of_pos hb, eq]
        have hlen : qs.flatten.length ≤ n := by
          rw [← eq]
          have := (List.dropWhile_sublist isAlnum (l := ps.flatten)).length_le
          omega
        obtain ⟨ts, hts⟩ := ih qs hlen hq
        rw [List.cons_append, tokenize_cons]
        simp only [matchRegexp, hs, hc, if_true, Bool.false_eq_true, if_false]
        rw [hdrop, hts]
        exact ⟨_, rfl⟩
      · subst e
        simp only [List.length_cons, List.length_nil] at hn
        obtain ⟨ts, hts⟩ := ih ps (by omega) hps
        rw [List.cons_append, List.cons_append, List.nil_append, tokenize_arrow, hts]
        exact ⟨_, rfl⟩
      · subst e
        simp only [List.length_cons, List.length_nil] at hn
        obtain ⟨ts, hts⟩ := ih ps (by omega) hps
        obtain ⟨hs, hl, hm⟩ := isPunct_token hc
        rw [List.cons_append, List.nil_append, tokenize_cons]
        simp only [matchRegexp, hs, hl, hm, hc, if_true, Bool.false_eq_true, if_false]
        rw [hts]
        exact ⟨_, rfl⟩

/-- The inputs that lex are the concatenations of whitespace runs,
identifiers and operators. -/
theorem tokenize_ok_iff_tokenText (cs : List Char) :
    (∃ ts, tokenize cs = .ok ts) ↔ tokenText cs := by
  constructor
  · rintro ⟨ts, h⟩
    exact tokenText_of_Lexes ((tokenize_iff_Lexes cs ts).mp h)
  · rintro ⟨ps, e, hp⟩
    rw [e]
    exact tokenize_pieces _ ps (Nat.le_refl _) hp

theorem Parse_lex_error {s : String} {e : ParseError} (h : tokenize s.data = .error e) :
    Parse s = .error e := by
  simp only [Parse, h]

/-! ## Where a character of the input ends up -/

theorem append_eq_append_stop (p : Char → Bool) (x : Char) (post : List Char) :
    ∀ (body rest pre : List Char), (∀ y ∈ body, p y = true) → p x = false →
    body ++ rest = pre ++ x :: post → ∃ pre2, pre = body ++ pre2 ∧ rest = pre2 ++ x :: post := by
  intro body
  induction body with
  | nil => intro rest pre _ _ e; exact ⟨pre, rfl, e⟩
  | cons b body ih =>
    intro rest pre hb hx e
    cases pre with
    | nil =>
      simp only [List.cons_append, List.nil_append, List.cons.injEq] at e
      have := hb b (List.mem_cons_self _ _)
      rw [e.1, hx] at this
      cases this
    | cons b1 pre1 =>
      simp only [List.cons_append, List.cons.injEq] at e
      obtain ⟨pre2, h1, h2⟩ := ih rest pre1 (fun y hy => hb y (List.mem_cons_of_mem _ hy)) hx e.2
      exact ⟨pre2, by rw [e.1, h1]; rfl, h2⟩

/-- In an input that lexes, every `-` is directly followed by `>`. -/
theorem Lexes_minus {cs : List Char} {ts : List Token} (h : Lexes cs ts) :
    ∀ pre post, cs = pre ++ '-' :: post → ∃ post1, post = '>' :: post1 := by
  induction h with
  | done => intro pre post e; cases pre <;> cases e
  | space c cs ts hc _ ih =>
    intro pre post e
    cases pre with
    | nil =>
      simp only [List.nil_append, List.cons.injEq] at e
      rw [e.1] at hc; cases hc
    | cons b pre1 =>
      simp only [List.cons_append, List.cons.injEq] at e
      exact ih pre1 post e.2
  | ident c body rest ts hc hb _ _ ih =>
    intro pre post e
    cases pre with
    | nil =>
      simp only [List.nil_append, List.cons.injEq] at e
      rw [e.1] at hc; cases hc
    | cons b pre1 =>
      simp only [List.cons_append, List.cons.injEq] at e
      obtain ⟨pre2, _, h2⟩ := append_eq_append_stop isAlnum '-' post body rest pre1 hb
        (by decide) e.2
      exact ih pre2 post h2
  | arrow cs ts _ ih =>
    intro pre post e
    cases pre with
    | nil =>
      simp only [List.nil_append, List.cons.injEq, true_and] at e
      exact ⟨cs, e.symm⟩
    | cons b pre1 =>
      cases pre1 with
      | nil =>
        simp only [List.cons_append, List.nil_append, List.cons.injEq] at e
        have := e.2.1
        cases this
      | cons b1 pre2 =>
        simp only [List.cons_append, List.cons.injEq] at e
        exact ih pre2 post e.2.2
  | punct c cs ts hc _ ih =>
    intro pre post e
    cases pre with
    | nil =>
      simp only [List.nil_append, List.cons.injEq] at e
      rw [e.1] at hc; cases hc
    | cons b pre1 =>
      simp only [List.cons_append, List.cons.injEq] at e
      exact ih pre1 post e.2

/-- In an input that lexes, every `>` directly follows a `-`. -/
theorem Lexes_greater {cs : List Char} {ts : List Token} (h : Lexes cs ts) :
    ∀ pre post, cs = pre ++ '>' :: post → ∃ pre1, pre = pre1 ++ [ '-'] := by
  induction h with
  | done => intro pre post e; cases pre <;> cases e
  | space c cs ts hc _ ih =>
    intro pre post e
    cases pre with
    | nil =>
      simp only [List.nil_append, List.cons.injEq] at e
      rw [e.1] at hc; cases hc
    | cons b pre1 =>
      simp only [List.cons_append, List.cons.injEq] at e
      obtain ⟨q, hq⟩ := ih pre1 post e.2
      exact ⟨b :: q, by rw [hq]; rfl⟩
  | ident c body rest ts hc hb _ _ ih =>
    intro pre post e
    cases pre with
    | nil =>
      simp only [List.nil_append, List.cons.injEq] at e
      rw [e.1] at hc; cases hc
    | cons b pre1 =>
      simp only [List.cons_append, List.cons.injEq] at e
      obtain ⟨pre2, h1, h2⟩ := append_eq_append_stop isAlnum '>' post body rest pre1 hb
        (by decide) e.2
      obtain ⟨q, hq⟩ := ih pre2 post h2
      exact ⟨b :: (body ++ q), by rw [h1, hq]; simp⟩
  | arrow cs ts _ ih =>
    intro pre post e
    cases pre with
    | nil =>
      simp only [List.nil_append, List.cons.injEq] at e
      have := e.1
      cases this
    | cons b pre1 =>
      cases pre1 with
      | nil =>
        simp only [List.cons_append, List.nil_append, List.cons.injEq] at e
        exact ⟨[], by rw [← e.1]; rfl⟩
      | cons b1 pre2 =>
        simp only [List.cons_append, List.cons.injEq] at e
        obtain ⟨q, hq⟩ := ih pre2 post e.2.2
        exact ⟨b :: b1 :: q, by rw [hq]; rfl⟩
  | punct c cs ts hc _ ih =>
    intro pre post e
    cases pre with
    | nil =>
      simp only [List.nil_append, List.cons.injEq] at e
      rw [e.1] at hc; cases hc
    | cons b pre1 =>
      simp only [List.cons_append, List.cons.injEq] at e
      obtain ⟨q, hq⟩ := ih pre1 post e.2
      exact ⟨b :: q, by rw [hq]; rfl⟩

theorem Lexes_nil_spaces {cs : List Char} {ts : List Token} (h : Lexes cs ts) :
    ts = [] → ∀ x ∈ cs, isSpace x = true := by
  induction h with
  | done => intro _ x hx; cases hx
  | space c cs ts hc _ ih =>
    intro e x hx
    rcases List.mem_cons.mp hx with hx | hx
    · rw [hx]; exact hc
    · exact ih e x hx
  | ident c body rest ts _ _ _ _ _ => intro e; cases e
  | arrow cs ts _ _ => intro e; cases e
  | punct c cs ts _ _ _ => intro e; cases e

theorem Lexes_spaces (ws : List Char) (h : ∀ x ∈ ws, isSpace x = true) : Lexes ws [] := by
  induction ws with
  | nil => exact Lexes.done
  | cons w ws ih =>
    exact Lexes.space w ws [] (h w (List.mem_cons_self _ _))
      (ih (fun x hx => h x (List.mem_cons_of_mem _ hx)))

theorem Lexes_spaces_tokens {ws : List Char} {ts : List Token} (h : ∀ x ∈ ws, isSpace x = true)
    (hl : Lexes ws ts) : ts = [] := by
  have h1 := tokenize_of_Lexes hl
  have h2 := tokenize_of_Lexes (Lexes_spaces ws h)
  rw [h1] at h2
  exact Except.ok.inj h2

/-- An input whose last token is `)` ends in `)` and whitespace. -/
theorem Lexes_last_rparen {cs : List Char} {ts : List Token} (h : Lexes cs ts) :
    ∀ ts0, ts = ts0 ++ [opToken ")"] →
    ∃ pre ws, cs = pre ++ ')' :: ws ∧ ∀ x ∈ ws, isSpace x = true := by
  induction h with
  | done => intro ts0 e; cases ts0 <;> cases e
  | space c cs ts _ _ ih =>
    intro ts0 e
    obtain ⟨pre, ws, h1, h2⟩ := ih ts0 e
    exact ⟨c :: pre, ws, by rw [h1]; rfl, h2⟩
  | ident c body rest ts _ _ _ _ ih =>
    intro ts0 e
    cases ts0 with
    | nil =>
      simp only [List.nil_append, List.cons.injEq] at e
      have := congrArg Token.Kind e.1
      cases this
    | cons t ts1 =>
      simp only [List.cons_append, List.cons.injEq] at e
      obtain ⟨pre, ws, h1, h2⟩ := ih ts1 e.2
      exact ⟨c :: (body ++ pre), ws, by rw [h1]; simp, h2⟩
  | arrow cs ts _ ih =>
    intro ts0 e
    cases ts0 with
    | nil =>
      simp only [List.nil_append, List.cons.injEq] at e
      have hv : (opToken "->").Value = (opToken ")").Value := congrArg Token.Value e.1
      exact absurd hv (by decide)
    | cons t ts1 =>
      simp only [List.cons_append, List.cons.injEq] at e
      obtain ⟨pre, ws, h1, h2⟩ := ih ts1 e.2
      exact ⟨'-' :: '>' :: pre, ws, by rw [h1]; rfl, h2⟩
  | punct c cs ts _ hl ih =>
    intro ts0 e
    cases ts0 with
    | nil =>
      simp only [List.nil_append, List.cons.injEq] at e
      have hv := congrArg (fun t : Token => t.Value.data) e.1
      simp only [opToken] at hv
      have hc : c = ')' := by
        have : [c] = [ ')'] := hv
        exact List.head_eq_of_cons_eq this
      exact ⟨[], cs, by rw [hc]; rfl, Lexes_nil_spaces hl e.2⟩
    | cons t ts1 =>
      simp only [List.cons_append, List.cons.injEq] at e
      obtain ⟨pre, ws, h1, h2⟩ := ih ts1 e.2
      exact ⟨c :: pre, ws, by rw [h1]; rfl, h2⟩

/-- Taking the last `)` out of an input that lexes takes the last token out
of its tokens. -/
theorem Lexes_remove_rparen {cs : List Char} {ts : List Token} (h : Lexes cs ts) :
    ∀ pre ws, cs = pre ++ ')' :: ws → (∀ x ∈ ws, isSpace x = true) →
    ∃ ts0, ts = ts0 ++ [opToken ")"] ∧ Lexes (pre ++ ws) ts0 := by
  induction h with
  | done => intro pre ws e; cases pre <;> cases e
  | space c cs ts hc _ ih =>
    intro pre ws e hw
    cases pre with
    | nil =>
      simp only [List.nil_append, List.cons.injEq] at e
      rw [e.1] at hc; cases hc
    | cons b pre1 =>
      simp only [List.cons_append, List.cons.injEq] at e
      obtain ⟨ts0, h1, h2⟩ := ih pre1 ws e.2 hw
      exact ⟨ts0, h1, by rw [← e.1]; exact Lexes.space c _ ts0 hc h2⟩
  | ident c body rest ts hc hb hr _ ih =>
    intro pre ws e hw
    cases pre with
    | nil =>
      simp only [List.nil_append, List.cons.injEq] at e
      rw [e.1] at hc; cases hc
    | cons b pre1 =>
      simp only [List.cons_append, List.cons.injEq] at e
      obtain ⟨pre2, h1, h2⟩ := append_eq_append_stop isAlnum ')' ws body rest pre1 hb
        (by decide) e.2
      obtain ⟨ts0, h3, h4⟩ := ih pre2 ws h2 hw
      refine ⟨identToken (String.mk (c :: body)) :: ts0, by rw [h3]; rfl, ?_⟩
      have hhead : ∀ x ∈ (pre2 ++ ws).head?, isAlnum x = false := by
        cases pre2 with
        | nil =>
          intro x hx
          cases ws with
          | nil => cases hx
          | cons w ws1 =>
            cases hx
            exact isSpace_not_isAlnum (hw _ (List.mem_cons_self _ _))
        | cons y pre3 =>
          intro x hx
          cases hx
          exact hr y (by rw [h2]; rfl)
      have := Lexes.ident c body (pre2 ++ ws) ts0 hc hb hhead h4
      rw [← e.1, h1]
      simpa using this
  | arrow cs ts _ ih =>
    intro pre ws e hw
    cases pre with
    | nil =>
      simp only [List.nil_append, List.cons.injEq] at e
      have := e.1
      cases this
    | cons b pre1 =>
      cases pre1 with
      | nil =>
        simp only [List.cons_append, List.nil_append, List.cons.injEq] at e
        have := e.2.1
        cases this
      | cons b1 pre2 =>
        simp only [List.cons_append, List.cons.injEq] at e
        obtain ⟨ts0, h1, h2⟩ := ih pre2 ws e.2.2 hw
        exact ⟨opToken "->" :: ts0, by rw [h1]; rfl,
          by rw [← e.1, ← e.2.1]; exact Lexes.arrow _ ts0 h2⟩
  | punct c cs ts hc hl ih =>
    intro pre ws e hw
    cases pre with
    | nil =>
      simp only [List.nil_append, List.cons.injEq] at e
      obtain ⟨e1, e2⟩ := e
      subst e1; subst e2
      have := Lexes_spaces_tokens hw hl
      subst this
      exact ⟨[], rfl, Lexes_spaces cs hw⟩
    | cons b pre1 =>
      simp only [List.cons_append, List.cons.injEq] at e
      obtain ⟨ts0, h1, h2⟩ := ih pre1 ws e.2 hw
      exact ⟨opToken (String.mk [c]) :: ts0, by rw [h1]; rfl,
        by rw [← e.1]; exact Lexes.punct c _ ts0 hc h2⟩

/-! ## The grammar accepts the tokens of a well-formed tree -/

theorem isIdentifier_ne {n s : String} (h : isIdentifier n = true) (hs : isIdentifier s = false) :
    n ≠ s := by
  intro e; rw [e, hs] at h; cases h

theorem parseForeignKeyDefinition_complete (fk : ForeignKeyDefinition) (rest : List Token) :
    parseForeignKeyDefinition (identToken fk.RelationName :: opToken "(" ::
      identToken fk.Attribute :: opToken ")" :: rest) = .ok (fk, rest) := by
  simp [parseForeignKeyDefinition, expectIdent, expectLiteral, identToken, opToken]

theorem parseOptionalFK_complete (fk : Option ForeignKeyDefinition) (rest : List Token)
    (hr : ∀ t ∈ rest.head?, t.Value ≠ "->") :
    parseOptionalFK (fkTokens fk ++ rest) = .ok (fk, rest) := by
  cases fk with
  | none =>
    cases rest with
    | nil => rfl
    | cons t rest =>
      have := hr t rfl
      simp [parseOptionalFK, fkTokens, this]
  | some d =>
    have h1 : expectIdent (identToken d.RelationName :: opToken "(" ::
        identToken d.Attribute :: opToken ")" :: rest) =
        .ok (d.RelationName, opToken "(" :: identToken d.Attribute :: opToken ")" :: rest) := by
      simp [expectIdent, identToken]
    simp only [fkTokens, List.cons_append, List.nil_append, parseOptionalFK]
    rw [if_pos (by rfl), h1]
    simp only
    rw [parseForeignKeyDefinition_complete]

theorem parseAttributeName_complete (a : Attribute) (rest : List Token)
    (h : a.wellFormed = true) :
    parseAttributeName (attributeNameTokens a ++ rest) = .ok (a.PK, a.AttrName, rest) := by
  obtain ⟨pk, name, fk⟩ := a
  simp only [Attribute.wellFormed, Bool.and_eq_true] at h
  cases pk with
  | none =>
    cases name with
    | none => simp at h
    | some n =>
      have hne : n ≠ "_" := isIdentifier_ne h.1 (by decide)
      simp [attributeNameTokens, parseAttributeName, expectIdent, identToken, hne]
  | some n =>
    cases name with
    | some m => simp at h
    | none =>
      simp [attributeNameTokens, parseAttributeName, expectIdent, expectLiteral, identToken,
        opToken]

theorem parseAttribute_complete (a : Attribute) (rest : List Token) (h : a.wellFormed = true)
    (hr : ∀ t ∈ rest.head?, t.Value ≠ "->") :
    parseAttribute (attributeTokens a ++ rest) = .ok (a, rest) := by
  simp only [parseAttribute, attributeTokens, List.append_assoc]
  rw [parseAttributeName_complete a _ h]
  simp only
  rw [parseOptionalFK_complete a.FK rest hr]

theorem attributeBegins_complete (a : Attribute) (rest : List Token)
    (h : a.wellFormed = true) : attributeBegins (attributeTokens a ++ rest) = true := by
  obtain ⟨pk, name, fk⟩ := a
  simp only [Attribute.wellFormed, Bool.and_eq_true] at h
  cases pk with
  | none =>
    cases name with
    | none => simp at h
    | some n =>
      have hne : n ≠ "_" := isIdentifier_ne h.1 (by decide)
      simp [attributeTokens, attributeNameTokens, attributeBegins, identToken, hne]
  | some n =>
    cases name with
    | some m => simp at h
    | none =>
      simp [attributeTokens, attributeNameTokens, attributeBegins, expectIdent, identToken,
        opToken]

theorem moreAttributesTokens_head (more : List Attribute) (rest : List Token) :
    ∀ t ∈ (moreAttributesTokens more ++ opToken ")" :: rest).head?, t.Value ≠ "->" := by
  cases more with
  | nil => simp [moreAttributesTokens, opToken]
  | cons a more => simp [moreAttributesTokens, opToken]

theorem moreAttributesTokens_cons (a : Attribute) (more : List Attribute) (rest : List Token) :
    moreAttributesTokens (a :: more) ++ rest =
      opToken "," :: (attributeTokens a ++ (moreAttributesTokens more ++ rest)) := by
  simp [moreAttributesTokens]

theorem parseMoreAttributes_round (n : Nat) (a : Attribute) (more : List Attribute)
    (rest : List Token) (ha : a.wellFormed = true) :
    parseMoreAttributes (n + 1) (moreAttributesTokens (a :: more) ++ opToken ")" :: rest) =
      match parseMoreAttributes n (moreAttributesTokens more ++ opToken ")" :: rest) with
      | .ok (more1, ts2) => .ok (a :: more1, ts2)
      | .error e => .error e
      | .panic => .panic := by
  rw [moreAttributesTokens_cons]
  simp only [parseMoreAttributes]
  rw [if_pos (by rfl), if_pos (attributeBegins_complete a _ ha),
    parseAttribute_complete a _ ha (moreAttributesTokens_head more rest)]

/-- Fewer attributes after the first than the cap: the repetition takes them
all. -/
theorem parseMoreAttributes_complete (more : List Attribute) : ∀ (n : Nat) (rest : List Token),
    more.length < n → (∀ a ∈ more, a.wellFormed = true) →
    parseMoreAttributes n (moreAttributesTokens more ++ opToken ")" :: rest) =
      .ok (more, opToken ")" :: rest) := by
  induction more with
  | nil =>
    intro n rest hn _
    cases n with
    | zero => simp at hn
    | succ n => simp [moreAttributesTokens, parseMoreAttributes, opToken]
  | cons a more ih =>
    intro n rest hn hall
    cases n with
    | zero => simp at hn
    | succ n =>
      simp only [List.length_cons, Nat.add_lt_add_iff_right] at hn
      rw [parseMoreAttributes_round n a more rest (hall a (List.mem_cons_self _ _)),
        ih n rest hn (fun b hb => hall b (List.mem_cons_of_mem _ hb))]

/-- As many attributes after the first as the cap, or more: the repetition
panics. -/
theorem parseMoreAttributes_panic (more : List Attribute) : ∀ (n : Nat) (rest : List Token),
    n ≤ more.length → (∀ a ∈ more, a.wellFormed = true) →
    parseMoreAttributes n (moreAttributesTokens more ++ opToken ")" :: rest) = .panic := by
  induction more with
  | nil =>
    intro n rest hn _
    have : n = 0 := Nat.le_zero.mp hn
    subst this
    rfl
  | cons a more ih =>
    intro n rest hn hall
    cases n with
    | zero => rfl
    | succ n =>
      simp only [List.length_cons, Nat.add_le_add_iff_right] at hn
      rw [parseMoreAttributes_round n a more rest (hall a (List.mem_cons_self _ _)),
        ih n rest hn (fun b hb => hall b (List.mem_cons_of_mem _ hb))]

theorem length_le_moreAttributesTokens (more : List Attribute) :
    more.length ≤ (moreAttributesTokens more).length := by
  induction more with
  | nil => simp
  | cons a more ih => simp [moreAttributesTokens]; omega

theorem parseRelationDefinition_head (name : String) (a : Attribute) (more : List Attribute)
    (rest : List Token) (ha : a.wellFormed = true) :
    parseRelationDefinition (relationTokens ⟨name, a :: more⟩ ++ rest) =
      match parseMoreAttributes MaxIterations
          (moreAttributesTokens more ++ opToken ")" :: rest) with
      | .error e => .error e
      | .panic => .panic
      | .ok (more1, ts4) =>
        match expectLiteral ")" ts4 with
        | .error e => .error e
        | .ok ts5 => .ok (⟨name, a :: more1⟩, ts5) := by
  have h1 : expectIdent (identToken name :: opToken "(" :: (attributeTokens a ++
      (moreAttributesTokens more ++ opToken ")" :: rest))) =
      .ok (name, opToken "(" :: (attributeTokens a ++
        (moreAttributesTokens more ++ opToken ")" :: rest))) := by
    simp [expectIdent, identToken]
  have h2 : expectLiteral "(" (opToken "(" :: (attributeTokens a ++
      (moreAttributesTokens more ++ opToken ")" :: rest))) =
      .ok (attributeTokens a ++ (moreAttributesTokens more ++ opToken ")" :: rest)) := by
    simp [expectLiteral, opToken]
  simp only [relationTokens, attributesTokens, List.cons_append, List.append_assoc,
    List.nil_append, parseRelationDefinition]
  rw [h1]; simp only
  rw [h2]; simp only
  rw [parseAttribute_complete a _ ha (moreAttributesTokens_head more rest)]

/-- The grammar takes the tokens of a well-formed tree with at most
`MaxIterations` attributes off the front of any token list and returns that
tree. -/
theorem parseRelationDefinition_complete (r : RelationDefinition) (rest : List Token)
    (h : r.wellFormed = true) (hcap : r.Attributes.length ≤ MaxIterations) :
    parseRelationDefinition (relationTokens r ++ rest) = .ok (r, rest) := by
  obtain ⟨name, attrs⟩ := r
  obtain ⟨_, hne, hall⟩ := (RelationDefinition.wellFormed_iff _).mp h
  cases attrs with
  | nil => exact absurd rfl hne
  | cons a more =>
    simp only [List.length_cons] at hcap
    rw [parseRelationDefinition_head name a more rest (hall a (List.mem_cons_self _ _)),
      parseMoreAttributes_complete more _ rest (by omega)
        (fun b hb => hall b (List.mem_cons_of_mem _ hb))]
    simp [expectLiteral, opToken]

/-- On the tokens of a well-formed tree with more than `MaxIterations`
attributes the grammar panics. -/
theorem parseRelationDefinition_panic (r : RelationDefinition) (rest : List Token)
    (h : r.wellFormed = true) (hcap : MaxIterations < r.Attributes.length) :
    parseRelationDefinition (relationTokens r ++ rest) = .panic := by
  obtain ⟨name, attrs⟩ := r
  obtain ⟨_, hne, hall⟩ := (RelationDefinition.wellFormed_iff _).mp h
  cases attrs with
  | nil => exact absurd rfl hne
  | cons a more =>
    simp only [List.length_cons] at hcap
    rw [parseRelationDefinition_head name a more rest (hall a (List.mem_cons_self _ _)),
      parseMoreAttributes_panic more _ rest (by omega)
        (fun b hb => hall b (List.mem_cons_of_mem _ hb))]
/-! ## What the grammar accepts is the token sequence of the tree it returns -/

theorem Token.valid_ident {t : Token} (hv : t.valid = true) (hk : t.Kind = TokenType.Ident) :
    t = identToken t.Value ∧ isIdentifier t.Value = true := by
  obtain ⟨k, v⟩ := t
  simp only at hk
  subst hk
  exact ⟨rfl, by simpa [Token.valid] using hv⟩

theorem Token.valid_literal {t : Token} {s : String} (hv : t.valid = true)
    (hs : isIdentifier s = false) (he : t.Value = s) : t = opToken s := by
  obtain ⟨k, v⟩ := t
  simp only at he
  subst he
  cases k with
  | Ident => simp [Token.valid, hs] at hv
  | Operators => rfl

theorem expectIdent_sound {ts rest : List Token} {n : String} (hv : ∀ t ∈ ts, t.valid = true)
    (h : expectIdent ts = .ok (n, rest)) :
    ts = identToken n :: rest ∧ isIdentifier n = true := by
  cases ts with
  | nil => cases h
  | cons t ts =>
    simp only [expectIdent] at h
    split at h
    · rename_i hk
      simp only [Except.ok.injEq, Prod.mk.injEq] at h
      obtain ⟨h1, h2⟩ := Token.valid_ident (hv t (List.mem_cons_self _ _)) hk
      rw [← h.1, ← h.2]
      exact ⟨by rw [← h1], h2⟩
    · cases h

theorem expectLiteral_sound {ts rest : List Token} {s : String}
    (hs : isIdentifier s = false) (hv : ∀ t ∈ ts, t.valid = true)
    (h : expectLiteral s ts = .ok rest) : ts = opToken s :: rest := by
  cases ts with
  | nil => cases h
  | cons t ts =>
    simp only [expectLiteral] at h
    split at h
    · rename_i he
      simp only [Except.ok.injEq] at h
      rw [← h, ← Token.valid_literal (hv t (List.mem_cons_self _ _)) hs he]
    · cases h

theorem valid_of_cons {t : Token} {ts : List Token} (hv : ∀ x ∈ t :: ts, x.valid = true) :
    ∀ x ∈ ts, x.valid = true :=
  fun x hx => hv x (List.mem_cons_of_mem _ hx)

theorem valid_of_append (xs : List Token) {ts : List Token}
    (hv : ∀ x ∈ xs ++ ts, x.valid = true) : ∀ x ∈ ts, x.valid = true :=
  fun x hx => hv x (List.mem_append_right _ hx)

theorem parseForeignKeyDefinition_sound {ts rest : List Token} {fk : ForeignKeyDefinition}
    (hv : ∀ t ∈ ts, t.valid = true) (h : parseForeignKeyDefinition ts = .ok (fk, rest)) :
    ts = identToken fk.RelationName :: opToken "(" :: identToken fk.Attribute ::
      opToken ")" :: rest ∧ fk.wellFormed = true := by
  simp only [parseForeignKeyDefinition] at h
  split at h
  · cases h
  · rename_i rel ts1 h1
    obtain ⟨e1, i1⟩ := expectIdent_sound hv h1
    subst e1
    split at h
    · cases h
    · rename_i ts2 h2
      have e2 := expectLiteral_sound (by decide) (valid_of_cons hv) h2
      subst e2
      split at h
      · cases h
      · rename_i attr ts3 h3
        obtain ⟨e3, i3⟩ := expectIdent_sound (valid_of_cons (valid_of_cons hv)) h3
        subst e3
        split at h
        · cases h
        · rename_i ts4 h4
          have e4 := expectLiteral_sound (by decide)
            (valid_of_cons (valid_of_cons (valid_of_cons hv))) h4
          subst e4
          simp only [Except.ok.injEq, Prod.mk.injEq] at h
          obtain ⟨hf, hr⟩ := h
          subst hf; subst hr
          exact ⟨rfl, by simp [ForeignKeyDefinition.wellFormed, i1, i3]⟩

theorem parseOptionalFK_sound {ts rest : List Token} {fk : Option ForeignKeyDefinition}
    (hv : ∀ t ∈ ts, t.valid = true) (h : parseOptionalFK ts = .ok (fk, rest)) :
    ts = fkTokens fk ++ rest ∧ ∀ d, fk = some d → d.wellFormed = true := by
  cases ts with
  | nil =>
    simp only [parseOptionalFK, Except.ok.injEq, Prod.mk.injEq] at h
    obtain ⟨hf, hr⟩ := h
    subst hf; subst hr
    exact ⟨rfl, fun d hd => by cases hd⟩
  | cons t ts1 =>
    simp only [parseOptionalFK] at h
    split at h
    · rename_i he
      have ht := Token.valid_literal (hv t (List.mem_cons_self _ _)) (by decide) he
      subst ht
      split at h
      · simp only [Except.ok.injEq, Prod.mk.injEq] at h
        obtain ⟨hf, hr⟩ := h
        subst hf; subst hr
        exact ⟨rfl, fun d hd => by cases hd⟩
      · split at h
        · cases h
        · rename_i d ts2 h1
          obtain ⟨e1, w1⟩ := parseForeignKeyDefinition_sound (valid_of_cons hv) h1
          simp only [Except.ok.injEq, Prod.mk.injEq] at h
          obtain ⟨hf, hr⟩ := h
          subst hf; subst hr
          refine ⟨by rw [e1]; rfl, fun d1 hd1 => ?_⟩
          cases hd1
          exact w1
    · simp only [Except.ok.injEq, Prod.mk.injEq] at h
      obtain ⟨hf, hr⟩ := h
      subst hf; subst hr
      exact ⟨rfl, fun d hd => by cases hd⟩

theorem parseAttributeName_sound {ts rest : List Token} {pk name : Option String}
    (hv : ∀ t ∈ ts, t.valid = true) (h : parseAttributeName ts = .ok (pk, name, rest)) :
    (∃ n, isIdentifier n = true ∧
      ((pk = some n ∧ name = none ∧ ts = opToken "_" :: identToken n :: opToken "_" :: rest) ∨
       (pk = none ∧ name = some n ∧ ts = identToken n :: rest))) := by
  cases ts with
  | nil => cases h
  | cons t ts1 =>
    simp only [parseAttributeName] at h
    split at h
    · rename_i he
      have ht := Token.valid_literal (hv t (List.mem_cons_self _ _)) (by decide) he
      subst ht
      split at h
      · cases h
      · rename_i n ts2 h1
        obtain ⟨e1, i1⟩ := expectIdent_sound (valid_of_cons hv) h1
        subst e1
        split at h
        · cases h
        · rename_i ts3 h2
          have e2 := expectLiteral_sound (by decide) (valid_of_cons (valid_of_cons hv)) h2
          subst e2
          simp only [Except.ok.injEq, Prod.mk.injEq] at h
          obtain ⟨hp, hn, hr⟩ := h
          subst hp; subst hn; subst hr
          exact ⟨n, i1, Or.inl ⟨rfl, rfl, rfl⟩⟩
    · split at h
      · cases h
      · rename_i n ts2 h1
        obtain ⟨e1, i1⟩ := expectIdent_sound hv h1
        simp only [Except.ok.injEq, Prod.mk.injEq] at h
        obtain ⟨hp, hn, hr⟩ := h
        subst hp; subst hn; subst hr
        exact ⟨n, i1, Or.inr ⟨rfl, rfl, e1⟩⟩

theorem parseAttribute_sound {ts rest : List Token} {a : Attribute}
    (hv : ∀ t ∈ ts, t.valid = true) (h : parseAttribute ts = .ok (a, rest)) :
    ts = attributeTokens a ++ rest ∧ a.wellFormed = true := by
  simp only [parseAttribute] at h
  split at h
  · cases h
  · rename_i pk name ts1 h1
    split at h
    · cases h
    · rename_i fk ts2 h2
      simp only [Except.ok.injEq, Prod.mk.injEq] at h
      obtain ⟨ha, hr⟩ := h
      subst ha; subst hr
      obtain ⟨n, i1, hcase⟩ := parseAttributeName_sound hv h1
      rcases hcase with ⟨hp, hn, e1⟩ | ⟨hp, hn, e1⟩
      · subst hp; subst hn; subst e1
        obtain ⟨e2, w2⟩ := parseOptionalFK_sound
          (valid_of_cons (valid_of_cons (valid_of_cons hv))) h2
        subst e2
        refine ⟨by simp [attributeTokens, attributeNameTokens], ?_⟩
        cases fk with
        | none => simp [Attribute.wellFormed, i1]
        | some d => simp [Attribute.wellFormed, i1, w2 d rfl]
      · subst hp; subst hn; subst e1
        obtain ⟨e2, w2⟩ := parseOptionalFK_sound (valid_of_cons hv) h2
        subst e2
        refine ⟨by simp [attributeTokens, attributeNameTokens], ?_⟩
        cases fk with
        | none => simp [Attribute.wellFormed, i1]
        | some d => simp [Attribute.wellFormed, i1, w2 d rfl]

theorem parseMoreAttributes_sound (n : Nat) : ∀ (ts rest : List Token) (more : List Attribute),
    (∀ t ∈ ts, t.valid = true) → parseMoreAttributes n ts = .ok (more, rest) →
    ts = moreAttributesTokens more ++ rest ∧ (∀ a ∈ more, a.wellFormed = true) ∧
      more.length < n := by
  induction n with
  | zero => intro ts rest more _ h; cases h
  | succ n ih =>
    intro ts rest more hv h
    cases ts with
    | nil =>
      simp only [parseMoreAttributes, Outcome.ok.injEq, Prod.mk.injEq] at h
      obtain ⟨hm, hr⟩ := h
      subst hm; subst hr
      exact ⟨rfl, by simp, by simp⟩
    | cons t ts =>
      simp only [parseMoreAttributes] at h
      split at h
      · rename_i he
        have ht := Token.valid_literal (hv t (List.mem_cons_self _ _)) (by decide) he
        subst ht
        split at h
        · split at h
          · cases h
          · rename_i a ts1 h1
            obtain ⟨e1, w1⟩ := parseAttribute_sound (valid_of_cons hv) h1
            subst e1
            split at h
            · rename_i more1 ts2 h2
              obtain ⟨e2, w2, l2⟩ := ih _ _ _ (valid_of_append _ (valid_of_cons hv)) h2
              subst e2
              simp only [Outcome.ok.injEq, Prod.mk.injEq] at h
              obtain ⟨hm, hr⟩ := h
              subst hm; subst hr
              refine ⟨by simp [moreAttributesTokens], ?_, by simp only [List.length_cons]; omega⟩
              intro b hb
              rcases List.mem_cons.mp hb with hb | hb
              · rw [hb]; exact w1
              · exact w2 b hb
            · cases h
            · cases h
        · simp only [Outcome.ok.injEq, Prod.mk.injEq] at h
          obtain ⟨hm, hr⟩ := h
          subst hm; subst hr
          exact ⟨rfl, by simp, by simp⟩
      · simp only [Outcome.ok.injEq, Prod.mk.injEq] at h
        obtain ⟨hm, hr⟩ := h
        subst hm; subst hr
        exact ⟨rfl, by simp, by simp⟩

/-- What the grammar takes off the front of a token list of the lexer is the
token sequence of the tree it returns, and that tree is well-formed and has
at most `MaxIterations` attributes. -/
theorem parseRelationDefinition_sound {ts rest : List Token} {r : RelationDefinition}
    (hv : ∀ t ∈ ts, t.valid = true) (h : parseRelationDefinition ts = .ok (r, rest)) :
    ts = relationTokens r ++ rest ∧ r.wellFormed = true ∧
      r.Attributes.length ≤ MaxIterations := by
  simp only [parseRelationDefinition] at h
  split at h
  · cases h
  · rename_i name ts1 h1
    obtain ⟨e1, i1⟩ := expectIdent_sound hv h1
    subst e1
    split at h
    · cases h
    · rename_i ts2 h2
      have e2 := expectLiteral_sound (by decide) (valid_of_cons hv) h2
      subst e2
      split at h
      · cases h
      · rename_i a ts3 h3
        obtain ⟨e3, w3⟩ := parseAttribute_sound (valid_of_cons (valid_of_cons hv)) h3
        subst e3
        split at h
        · cases h
        · cases h
        · rename_i more ts4 h4
          have hv4 := valid_of_append _ (valid_of_cons (valid_of_cons hv))
          obtain ⟨e4, w4, l4⟩ := parseMoreAttributes_sound _ _ _ _ hv4 h4
          subst e4
          split at h
          · cases h
          · rename_i ts5 h5
            have e5 := expectLiteral_sound (by decide) (valid_of_append _ hv4) h5
            subst e5
            simp only [Outcome.ok.injEq, Prod.mk.injEq] at h
            obtain ⟨hr1, hr2⟩ := h
            subst hr1; subst hr2
            refine ⟨by simp [relationTokens, attributesTokens], ?_,
              by simp only [List.length_cons]; omega⟩
            rw [RelationDefinition.wellFormed_iff]
            refine ⟨i1, by simp, ?_⟩
            intro b hb
            rcases List.mem_cons.mp hb with hb | hb
            · rw [hb]; exact w3
            · exact w4 b hb
/-! ## Parse as a whole -/

theorem parseTokens_ok {ts : List Token} {r : RelationDefinition}
    (h : parseTokens ts = .ok r) : parseRelationDefinition ts = .ok (r, []) := by
  simp only [parseTokens] at h
  split at h
  · cases h
  · cases h
  · rename_i r1 h1
    cases h
    exact h1
  · cases h

theorem Parse_ok {s : String} {r : RelationDefinition} (h : Parse s = .ok r) :
    ∃ ts, tokenize s.data = .ok ts ∧ parseRelationDefinition ts = .ok (r, []) := by
  simp only [Parse] at h
  split at h
  · cases h
  · rename_i ts hts
    exact ⟨ts, hts, parseTokens_ok h⟩

/-- A successful parse: the input lexes to the token sequence of the result,
and the result is well-formed. -/
theorem Parse_ok_tokens {s : String} {r : RelationDefinition} (h : Parse s = .ok r) :
    tokenize s.data = .ok (relationTokens r) ∧ r.wellFormed = true := by
  obtain ⟨ts, hts, hp⟩ := Parse_ok h
  obtain ⟨e, w, _⟩ := parseRelationDefinition_sound (tokenize_valid hts) hp
  rw [List.append_nil] at e
  rw [hts, e]
  exact ⟨rfl, w⟩

/-- A successful parse has at most `MaxIterations` attributes. -/
theorem Parse_ok_cap {s : String} {r : RelationDefinition} (h : Parse s = .ok r) :
    r.Attributes.length ≤ MaxIterations := by
  obtain ⟨ts, hts, hp⟩ := Parse_ok h
  exact (parseRelationDefinition_sound (tokenize_valid hts) hp).2.2

/-- An input that lexes to the tokens of a well-formed tree with at most
`MaxIterations` attributes parses to it. -/
theorem Parse_of_tokens {s : String} {r : RelationDefinition} (w : r.wellFormed = true)
    (hcap : r.Attributes.length ≤ MaxIterations)
    (h : tokenize s.data = .ok (relationTokens r)) : Parse s = .ok r := by
  have hp := parseRelationDefinition_complete r [] w hcap
  rw [List.append_nil] at hp
  simp only [Parse, h, parseTokens, hp]

/-- An input that lexes to the tokens of a well-formed tree with more than
`MaxIterations` attributes makes the call panic. -/
theorem Parse_panic_of_tokens {s : String} {r : RelationDefinition} (w : r.wellFormed = true)
    (hcap : MaxIterations < r.Attributes.length)
    (h : tokenize s.data = .ok (relationTokens r)) : Parse s = .panic := by
  have hp := parseRelationDefinition_panic r [] w hcap
  rw [List.append_nil] at hp
  simp only [Parse, h, parseTokens, hp]

/-- An input that lexes to the tokens of a well-formed tree and at least one
more token fails at that token. -/
theorem Parse_of_tokens_trailing {s : String} {r : RelationDefinition} (w : r.wellFormed = true)
    (hcap : r.Attributes.length ≤ MaxIterations) (t : Token) (rest : List Token)
    (h : tokenize s.data = .ok (relationTokens r ++ t :: rest)) :
    Parse s = .error (.grammar (t :: rest)) := by
  have hp := parseRelationDefinition_complete r (t :: rest) w hcap
  simp only [Parse, h, parseTokens, hp]

theorem relationTokens_endsInOperator (r : RelationDefinition) :
    endsInOperator (relationTokens r) := by
  intro x hx
  have e : relationTokens r =
      (identToken r.Name :: opToken "(" :: attributesTokens r.Attributes) ++ [opToken ")"] := rfl
  rw [e, List.getLast?_concat] at hx
  cases hx
  rfl

theorem foldl_append_filter (p : Attribute → Bool) (l : List Attribute) :
    ∀ acc : List Attribute,
    l.foldl (fun res attr => if p attr then res ++ [attr] else res) acc = acc ++ l.filter p := by
  induction l with
  | nil => intro acc; simp
  | cons a l ih =>
    intro acc
    simp only [List.foldl_cons, ih]
    by_cases h : p a = true
    · simp [h, List.filter_cons]
    · simp [h, List.filter_cons]

theorem GetPKAttributes_eq_filter (r : RelationDefinition) :
    r.GetPKAttributes = r.Attributes.filter Attribute.IsPK := by
  simp [RelationDefinition.GetPKAttributes, foldl_append_filter]

theorem GetFKs_eq_filter (r : RelationDefinition) :
    r.GetFKs = r.Attributes.filter Attribute.IsFK := by
  simp [RelationDefinition.GetFKs, foldl_append_filter]

theorem mem_moreAttributesTokens {a : Attribute} {t : Token} (more : List Attribute)
    (ha : a ∈ more) (ht : t ∈ attributeTokens a) : t ∈ moreAttributesTokens more := by
  induction more with
  | nil => cases ha
  | cons b more ih =>
    simp only [moreAttributesTokens, List.mem_cons, List.mem_append]
    rcases List.mem_cons.mp ha with hb | hb
    · subst hb; exact Or.inr (Or.inl ht)
    · exact Or.inr (Or.inr (ih hb))

theorem mem_relationTokens {r : RelationDefinition} {a : Attribute} {t : Token}
    (ha : a ∈ r.Attributes) (ht : t ∈ attributeTokens a) : t ∈ relationTokens r := by
  obtain ⟨name, attrs⟩ := r
  cases attrs with
  | nil => cases ha
  | cons b more =>
    simp only [relationTokens, attributesTokens, List.mem_cons, List.mem_append]
    rcases List.mem_cons.mp ha with hb | hb
    · subst hb; exact Or.inr (Or.inr (Or.inl (Or.inl ht)))
    · exact Or.inr (Or.inr (Or.inl (Or.inr (mem_moreAttributesTokens more hb ht))))

theorem Attribute.wellFormed_name {a : Attribute} (h : a.wellFormed = true) :
    (a.PK = none ↔ a.AttrName ≠ none) ∧
    ∃ n, a.Name = some n ∧ isIdentifier n = true ∧ identToken n ∈ attributeTokens a := by
  obtain ⟨pk, name, fk⟩ := a
  simp only [Attribute.wellFormed, Bool.and_eq_true] at h
  cases pk with
  | none =>
    cases name with
    | none => simp at h
    | some n =>
      exact ⟨by simp, n, rfl, h.1, by simp [attributeTokens, attributeNameTokens]⟩
  | some n =>
    cases name with
    | some m => simp at h
    | none =>
      exact ⟨by simp, n, rfl, h.1, by simp [attributeTokens, attributeNameTokens]⟩

/-! ## The grammar: a missing last parenthesis, consumed tokens, error kinds -/

theorem moreAttributesTokens_head_end (more : List Attribute) :
    ∀ t ∈ (moreAttributesTokens more).head?, t.Value ≠ "->" := by
  cases more with
  | nil => simp [moreAttributesTokens]
  | cons a more => simp [moreAttributesTokens, opToken]

theorem parseMoreAttributes_complete_end (more : List Attribute) : ∀ (n : Nat),
    more.length < n → (∀ a ∈ more, a.wellFormed = true) →
    parseMoreAttributes n (moreAttributesTokens more) = .ok (more, []) := by
  induction more with
  | nil =>
    intro n hn _
    cases n with
    | zero => simp at hn
    | succ n => rfl
  | cons a more ih =>
    intro n hn hall
    cases n with
    | zero => simp at hn
    | succ n =>
      simp only [List.length_cons, Nat.add_lt_add_iff_right] at hn
      simp only [moreAttributesTokens, parseMoreAttributes]
      rw [if_pos (by rfl), if_pos (attributeBegins_complete a _ (hall a (List.mem_cons_self _ _))),
        parseAttribute_complete a _ (hall a (List.mem_cons_self _ _))
          (moreAttributesTokens_head_end more)]
      simp only
      rw [ih n hn (fun b hb => hall b (List.mem_cons_of_mem _ hb))]

theorem relationTokens_dropLast (r : RelationDefinition) :
    (relationTokens r).dropLast =
      identToken r.Name :: opToken "(" :: attributesTokens r.Attributes := by
  have e : relationTokens r =
      (identToken r.Name :: opToken "(" :: attributesTokens r.Attributes) ++ [opToken ")"] := rfl
  rw [e, List.dropLast_concat]

/-- The tokens of a well-formed tree without the last `)`: the grammar stops
at the end of the tokens. -/
theorem parseTokens_missing_rparen (r : RelationDefinition) (h : r.wellFormed = true)
    (hcap : r.Attributes.length ≤ MaxIterations) :
    parseTokens (relationTokens r).dropLast = .error (.grammar []) := by
  rw [relationTokens_dropLast]
  obtain ⟨name, attrs⟩ := r
  obtain ⟨_, hne, hall⟩ := (RelationDefinition.wellFormed_iff _).mp h
  cases attrs with
  | nil => exact absurd rfl hne
  | cons a more =>
    simp only [List.length_cons] at hcap
    simp only [attributesTokens, parseTokens, parseRelationDefinition]
    have h1 : expectIdent (identToken name :: opToken "(" ::
        (attributeTokens a ++ moreAttributesTokens more)) =
        .ok (name, opToken "(" :: (attributeTokens a ++ moreAttributesTokens more)) := by
      simp [expectIdent, identToken]
    have h2 : expectLiteral "(" (opToken "(" ::
        (attributeTokens a ++ moreAttributesTokens more)) =
        .ok (attributeTokens a ++ moreAttributesTokens more) := by
      simp [expectLiteral, opToken]
    rw [h1]; simp only
    rw [h2]; simp only
    rw [parseAttribute_complete a _ (hall a (List.mem_cons_self _ _))
      (moreAttributesTokens_head_end more)]
    simp only
    rw [parseMoreAttributes_complete_end more _ (by omega)
      (fun b hb => hall b (List.mem_cons_of_mem _ hb))]
    rfl

theorem expectIdent_length {ts rest : List Token} {n : String}
    (h : expectIdent ts = .ok (n, rest)) : rest.length + 1 = ts.length := by
  cases ts with
  | nil => cases h
  | cons t ts =>
    simp only [expectIdent] at h
    split at h
    · simp only [Except.ok.injEq, Prod.mk.injEq] at h
      rw [← h.2]; rfl
    · cases h

theorem expectLiteral_length {ts rest : List Token} {s : String}
    (h : expectLiteral s ts = .ok rest) : rest.length + 1 = ts.length := by
  cases ts with
  | nil => cases h
  | cons t ts =>
    simp only [expectLiteral] at h
    split at h
    · simp only [Except.ok.injEq] at h
      rw [← h]; rfl
    · cases h

theorem parseForeignKeyDefinition_length {ts rest : List Token} {fk : ForeignKeyDefinition}
    (h : parseForeignKeyDefinition ts = .ok (fk, rest)) : rest.length + 4 = ts.length := by
  simp only [parseForeignKeyDefinition] at h
  split at h
  · cases h
  · rename_i rel ts1 h1
    split at h
    · cases h
    · rename_i ts2 h2
      split at h
      · cases h
      · rename_i attr ts3 h3
        split at h
        · cases h
        · rename_i ts4 h4
          simp only [Except.ok.injEq, Prod.mk.injEq] at h
          have := expectIdent_length h1
          have := expectLiteral_length h2
          have := expectIdent_length h3
          have := expectLiteral_length h4
          rw [← h.2]; omega

theorem parseOptionalFK_length {ts rest : List Token} {fk : Option ForeignKeyDefinition}
    (h : parseOptionalFK ts = .ok (fk, rest)) : rest.length ≤ ts.length := by
  cases ts with
  | nil =>
    simp only [parseOptionalFK, Except.ok.injEq, Prod.mk.injEq] at h
    rw [← h.2]
  | cons t ts1 =>
    simp only [parseOptionalFK] at h
    split at h
    · split at h
      · simp only [Except.ok.injEq, Prod.mk.injEq] at h
        rw [← h.2]
      · split at h
        · cases h
        · rename_i d ts2 h1
          simp only [Except.ok.injEq, Prod.mk.injEq] at h
          have := parseForeignKeyDefinition_length h1
          rw [← h.2]; simp only [List.length_cons]; omega
    · simp only [Except.ok.injEq, Prod.mk.injEq] at h
      rw [← h.2]

theorem parseAttributeName_length {ts rest : List Token} {pk name : Option String}
    (h : parseAttributeName ts = .ok (pk, name, rest)) : rest.length < ts.length := by
  cases ts with
  | nil => cases h
  | cons t ts1 =>
    simp only [parseAttributeName] at h
    split at h
    · split at h
      · cases h
      · rename_i n ts2 h1
        split at h
        · cases h
        · rename_i ts3 h2
          simp only [Except.ok.injEq, Prod.mk.injEq] at h
          have := expectIdent_length h1
          have := expectLiteral_length h2
          rw [← h.2.2]; simp only [List.length_cons]; omega
    · split at h
      · cases h
      · rename_i n ts2 h1
        simp only [Except.ok.injEq, Prod.mk.injEq] at h
        have := expectIdent_length h1
        rw [← h.2.2]; omega

/-- An attribute takes at least one token. -/
theorem parseAttribute_length {ts rest : List Token} {a : Attribute}
    (h : parseAttribute ts = .ok (a, rest)) : rest.length < ts.length := by
  simp only [parseAttribute] at h
  split at h
  · cases h
  · rename_i pk name ts1 h1
    split at h
    · cases h
    · rename_i fk ts2 h2
      simp only [Except.ok.injEq, Prod.mk.injEq] at h
      have := parseAttributeName_length h1
      have := parseOptionalFK_length h2
      rw [← h.2]; omega

/-- A repetition that ends has taken fewer rounds than the cap, and each of
its rounds has taken at least two tokens. -/
theorem parseMoreAttributes_ok_length (n : Nat) : ∀ (ts rest : List Token)
    (more : List Attribute), parseMoreAttributes n ts = .ok (more, rest) →
    more.length < n ∧ rest.length + 2 * more.length ≤ ts.length := by
  induction n with
  | zero => intro ts rest more h; cases h
  | succ n ih =>
    intro ts rest more h
    cases ts with
    | nil =>
      simp only [parseMoreAttributes, Outcome.ok.injEq, Prod.mk.injEq] at h
      rw [← h.1, ← h.2]; simp
    | cons t ts =>
      simp only [parseMoreAttributes] at h
      split at h
      · split at h
        · split at h
          · cases h
          · rename_i a ts1 h1
            have := parseAttribute_length h1
            split at h
            · rename_i more1 ts2 h2
              obtain ⟨l1, l2⟩ := ih _ _ _ h2
              simp only [Outcome.ok.injEq, Prod.mk.injEq] at h
              rw [← h.1, ← h.2]
              simp only [List.length_cons]
              omega
            · cases h
            · cases h
        · simp only [Outcome.ok.injEq, Prod.mk.injEq] at h
          rw [← h.1, ← h.2]; simp
      · simp only [Outcome.ok.injEq, Prod.mk.injEq] at h
        rw [← h.1, ← h.2]; simp

/-- A repetition that panics has taken all its rounds, of at least two
tokens each. -/
theorem parseMoreAttributes_panic_length (n : Nat) : ∀ (ts : List Token),
    parseMoreAttributes n ts = .panic → 2 * n ≤ ts.length := by
  induction n with
  | zero => intro ts _; simp
  | succ n ih =>
    intro ts h
    cases ts with
    | nil => cases h
    | cons t ts =>
      simp only [parseMoreAttributes] at h
      split at h
      · split at h
        · split at h
          · cases h
          · rename_i a ts1 h1
            have := parseAttribute_length h1
            split at h
            · cases h
            · cases h
            · rename_i h2
              have := ih _ h2
              simp only [List.length_cons]
              omega
        · cases h
      · cases h

theorem parseRelationDefinition_panic_length {ts : List Token}
    (h : parseRelationDefinition ts = .panic) : 2 * MaxIterations + 3 ≤ ts.length := by
  simp only [parseRelationDefinition] at h
  split at h
  · cases h
  · rename_i name ts1 h1
    split at h
    · cases h
    · rename_i ts2 h2
      split at h
      · cases h
      · rename_i a ts3 h3
        split at h
        · cases h
        · rename_i h4
          have := expectIdent_length h1
          have := expectLiteral_length h2
          have := parseAttribute_length h3
          have := parseMoreAttributes_panic_length _ _ h4
          omega
        · split at h <;> cases h

/-- The grammar panics only on at least `2 * MaxIterations + 3` tokens. -/
theorem parseTokens_panic_length {ts : List Token} (h : parseTokens ts = .panic) :
    2 * MaxIterations + 3 ≤ ts.length := by
  simp only [parseTokens] at h
  split at h
  · cases h
  · rename_i h1; exact parseRelationDefinition_panic_length h1
  · cases h
  · cases h

theorem Lexes_length {cs : List Char} {ts : List Token} (h : Lexes cs ts) :
    ts.length ≤ cs.length := by
  induction h with
  | done => simp
  | space c cs ts _ _ ih => simp only [List.length_cons]; omega
  | ident c body rest ts _ _ _ _ ih =>
    simp only [List.length_cons, List.length_append]; omega
  | arrow cs ts _ ih => simp only [List.length_cons]; omega
  | punct c cs ts _ _ ih => simp only [List.length_cons]; omega

theorem expectIdent_error {ts : List Token} {e : ParseError}
    (h : expectIdent ts = .error e) : ∃ rest, e = .grammar rest := by
  cases ts with
  | nil => cases h; exact ⟨_, rfl⟩
  | cons t ts =>
    simp only [expectIdent] at h
    split at h
    · cases h
    · cases h; exact ⟨_, rfl⟩

theorem expectLiteral_error {ts : List Token} {s : String} {e : ParseError}
    (h : expectLiteral s ts = .error e) : ∃ rest, e = .grammar rest := by
  cases ts with
  | nil => cases h; exact ⟨_, rfl⟩
  | cons t ts =>
    simp only [expectLiteral] at h
    split at h
    · cases h
    · cases h; exact ⟨_, rfl⟩

theorem parseForeignKeyDefinition_error {ts : List Token} {e : ParseError}
    (h : parseForeignKeyDefinition ts = .error e) : ∃ rest, e = .grammar rest := by
  simp only [parseForeignKeyDefinition] at h
  split at h
  · rename_i e1 h1; cases h; exact expectIdent_error h1
  · split at h
    · rename_i e1 h1; cases h; exact expectLiteral_error h1
    · split at h
      · rename_i e1 h1; cases h; exact expectIdent_error h1
      · split at h
        · rename_i e1 h1; cases h; exact expectLiteral_error h1
        · cases h

theorem parseOptionalFK_error {ts : List Token} {e : ParseError}
    (h : parseOptionalFK ts = .error e) : ∃ rest, e = .grammar rest := by
  cases ts with
  | nil => cases h
  | cons t ts1 =>
    simp only [parseOptionalFK] at h
    split at h
    · split at h
      · cases h
      · split at h
        · rename_i e1 h1; cases h; exact parseForeignKeyDefinition_error h1
        · cases h
    · cases h

theorem parseAttributeName_error {ts : List Token} {e : ParseError}
    (h : parseAttributeName ts = .error e) : ∃ rest, e = .grammar rest := by
  cases ts with
  | nil => cases h; exact ⟨_, rfl⟩
  | cons t ts1 =>
    simp only [parseAttributeName] at h
    split at h
    · split at h
      · rename_i e1 h1; cases h; exact expectIdent_error h1
      · split at h
        · rename_i e1 h1; cases h; exact expectLiteral_error h1
        · cases h
    · split at h
      · rename_i e1 h1; cases h; exact expectIdent_error h1
      · cases h

theorem parseAttribute_error {ts : List Token} {e : ParseError}
    (h : parseAttribute ts = .error e) : ∃ rest, e = .grammar rest := by
  simp only [parseAttribute] at h
  split at h
  · rename_i e1 h1; cases h; exact parseAttributeName_error h1
  · split at h
    · rename_i e1 h1; cases h; exact parseOptionalFK_error h1
    · cases h

theorem parseMoreAttributes_error (n : Nat) : ∀ (ts : List Token) (e : ParseError),
    parseMoreAttributes n ts = .error e → ∃ rest, e = .grammar rest := by
  induction n with
  | zero => intro ts e h; cases h
  | succ n ih =>
    intro ts e h
    cases ts with
    | nil => cases h
    | cons t ts =>
      simp only [parseMoreAttributes] at h
      split at h
      · split at h
        · split at h
          · rename_i e1 h1; cases h; exact parseAttribute_error h1
          · split at h
            · cases h
            · rename_i e1 h1; cases h; exact ih _ _ h1
            · cases h
        · cases h
      · cases h

theorem parseRelationDefinition_error {ts : List Token} {e : ParseError}
    (h : parseRelationDefinition ts = .error e) : ∃ rest, e = .grammar rest := by
  simp only [parseRelationDefinition] at h
  split at h
  · rename_i e1 h1; cases h; exact expectIdent_error h1
  · split at h
    · rename_i e1 h1; cases h; exact expectLiteral_error h1
    · split at h
      · rename_i e1 h1; cases h; exact parseAttribute_error h1
      · split at h
        · rename_i e1 h1; cases h; exact parseMoreAttributes_error _ _ _ h1
        · cases h
        · split at h
          · rename_i e1 h1; cases h; exact expectLiteral_error h1
          · cases h

/-- A failure of the grammar is a grammar error. -/
theorem parseTokens_error {ts : List Token} {e : ParseError}
    (h : parseTokens ts = .error e) : ∃ rest, e = .grammar rest := by
  simp only [parseTokens] at h
  split at h
  · rename_i e1 h1; cases h; exact parseRelationDefinition_error h1
  · cases h
  · cases h
  · cases h; exact ⟨_, rfl⟩
/-! ## Whitespace between texts, attribute shapes, trees over the cap -/

/-- A text that lexes, followed by a text that lexes and does not go on with
a letter or digit, lexes to the tokens of both. -/
theorem Lexes_append_break {a : List Char} {ta : List Token} (h : Lexes a ta) :
    ∀ (b : List Char) (tb : List Token), Lexes b tb →
    (∀ x ∈ b.head?, isAlnum x = false) → Lexes (a ++ b) (ta ++ tb) := by
  induction h with
  | done => intro b tb hb _; exact hb
  | space c cs ts hc _ ih =>
    intro b tb hb hh
    exact Lexes.space c _ _ hc (ih b tb hb hh)
  | ident c body rest ts hc hbody hr _ ih =>
    intro b tb hb hh
    have hhead : ∀ x ∈ (rest ++ b).head?, isAlnum x = false := by
      cases rest with
      | nil => simpa using hh
      | cons y rest1 =>
        intro x hx
        cases hx
        exact hr y rfl
    have := Lexes.ident c body (rest ++ b) (ts ++ tb) hc hbody hhead (ih b tb hb hh)
    simpa using this
  | arrow cs ts _ ih =>
    intro b tb hb hh
    exact Lexes.arrow _ _ (ih b tb hb hh)
  | punct c cs ts hc _ ih =>
    intro b tb hb hh
    exact Lexes.punct c _ _ hc (ih b tb hb hh)

theorem Lexes_spaces_append (ws : List Char) (h : ∀ x ∈ ws, isSpace x = true)
    {b : List Char} {tb : List Token} (hb : Lexes b tb) : Lexes (ws ++ b) tb := by
  induction ws with
  | nil => exact hb
  | cons w ws ih =>
    exact Lexes.space w _ _ (h w (List.mem_cons_self _ _))
      (ih (fun x hx => h x (List.mem_cons_of_mem _ hx)))

/-- Whitespace between two texts that lex is dropped: the tokens are those
of the first text followed by those of the second. Without whitespace the
same holds when the texts cannot run into one identifier. -/
theorem tokenize_between (a b ws : List Char) (ta tb : List Token)
    (ha : tokenize a = .ok ta) (hb : tokenize b = .ok tb)
    (hw : ∀ c ∈ ws, isSpace c = true)
    (hsep : ws ≠ [] ∨ endsInOperator ta ∨ ∀ x ∈ b.head?, isAlnum x = false) :
    tokenize (a ++ ws ++ b) = .ok (ta ++ tb) := by
  have la := (tokenize_iff_Lexes _ _).mp ha
  have lb := (tokenize_iff_Lexes _ _).mp hb
  rw [List.append_assoc]
  cases ws with
  | cons w ws1 =>
    apply tokenize_of_Lexes
    refine Lexes_append_break la _ _ (Lexes_spaces_append _ hw lb) ?_
    intro x hx
    cases hx
    exact isSpace_not_isAlnum (hw _ (List.mem_cons_self _ _))
  | nil =>
    rw [List.nil_append]
    rcases hsep with h | h | h
    · exact absurd rfl h
    · rw [tokenize_append a b ta ha h, hb]; rfl
    · exact tokenize_of_Lexes (Lexes_append_break la _ _ lb h)

/-- The tokens of a well-formed attribute: its name as `_`, identifier, `_`
when it is a primary key and as the identifier alone when it is not, then
the tokens of its foreign key. -/
theorem Attribute.wellFormed_shape {a : Attribute} (h : a.wellFormed = true) :
    ∃ n, a.Name = some n ∧ n ≠ "" ∧ isIdentifier n = true ∧
      ((a.PK = some n ∧ a.AttrName = none ∧
          attributeTokens a = opToken "_" :: identToken n :: opToken "_" :: fkTokens a.FK) ∨
       (a.PK = none ∧ a.AttrName = some n ∧
          attributeTokens a = identToken n :: fkTokens a.FK)) := by
  obtain ⟨pk, name, fk⟩ := a
  simp only [Attribute.wellFormed, Bool.and_eq_true] at h
  cases pk with
  | none =>
    cases name with
    | none => simp at h
    | some n =>
      exact ⟨n, rfl, isIdentifier_ne h.1 (by decide), h.1, Or.inr ⟨rfl, rfl, rfl⟩⟩
  | some n =>
    cases name with
    | some m => simp at h
    | none =>
      exact ⟨n, rfl, isIdentifier_ne h.1 (by decide), h.1, Or.inl ⟨rfl, rfl, rfl⟩⟩

theorem replicate_wellFormed (name : String) (n : Nat) (a : Attribute)
    (hn : isIdentifier name = true) (ha : a.wellFormed = true) :
    (RelationDefinition.mk name (List.replicate (n + 1) a)).wellFormed = true := by
  rw [RelationDefinition.wellFormed_iff]
  refine ⟨hn, ?_, ?_⟩
  · intro e
    have := congrArg List.length e
    simp only [List.length_replicate, List.length_nil] at this
    omega
  · intro b hb
    rw [List.eq_of_mem_replicate hb]
    exact ha

theorem manyAttributes_wellFormed : manyAttributes.wellFormed = true :=
  replicate_wellFormed "R" MaxIterations ⟨none, some "a", none⟩ (by decide) (by decide)

theorem manyAttributes_length : MaxIterations < manyAttributes.Attributes.length := by
  show MaxIterations < (List.replicate (MaxIterations + 1) _).length
  rw [List.length_replicate]
  omega

theorem manyKeys_wellFormed : manyKeys.wellFormed = true :=
  replicate_wellFormed "K" MaxIterations ⟨some "k", none, none⟩ (by decide) (by decide)

theorem manyKeys_length : MaxIterations < manyKeys.Attributes.length := by
  show MaxIterations < (List.replicate (MaxIterations + 1) _).length
  rw [List.length_replicate]
  omega

/-- On an input of fewer than `2 * MaxIterations + 3` characters `Parse`
does not panic. -/
theorem Parse_panic_length {s : String} (h : Parse s = .panic) :
    ∃ ts, tokenize s.data = .ok ts ∧ 2 * MaxIterations + 3 ≤ ts.length ∧
      ts.length ≤ s.data.length := by
  simp only [Parse] at h
  split at h
  · cases h
  · rename_i ts hts
    exact ⟨ts, hts, parseTokens_panic_length h,
      Lexes_length ((tokenize_iff_Lexes _ _).mp hts)⟩
/-! ## The claims -/

/-- C1, as stated, fails: the well-formed tree `manyAttributes` has one
attribute more than the library's cap on a repetition allows, and `Parse` of
that tree written in the notation panics instead of returning the tree. -/
theorem C1_roundtrip_over_cap :
    manyAttributes.wellFormed = true ∧
    Parse manyAttributes.write = .panic ∧
    Parse manyAttributes.write ≠ .ok manyAttributes := by
  have h : Parse manyAttributes.write = .panic :=
    Parse_panic_of_tokens manyAttributes_wellFormed manyAttributes_length
      (tokenize_write _ manyAttributes_wellFormed)
  refine ⟨manyAttributes_wellFormed, h, ?_⟩
  rw [h]
  intro e
  cases e

/-- C1, amended: round trip up to the cap. For every well-formed tree (the
name an identifier, at least one attribute, each attribute with exactly one
of `PK` and `AttrName` set to an identifier and an optional foreign key of
two identifiers) with at most `MaxIterations` = 1000000 attributes, `Parse`
of the tree written in the notation succeeds and returns exactly that tree,
the attributes in the same order, and so does `Parse` of any other input
with the token sequence of the tree; for a well-formed tree with more
attributes the call panics and returns nothing. -/
theorem C1_parse_write_roundtrip (r : RelationDefinition) (h : r.wellFormed = true) :
    (r.Attributes.length ≤ MaxIterations →
      Parse r.write = .ok r ∧
      ∀ s : String, tokenize s.data = .ok (relationTokens r) → Parse s = .ok r) ∧
    (MaxIterations < r.Attributes.length → Parse r.write = .panic) ∧
    MaxIterations = 1000000 :=
  ⟨fun hcap => ⟨Parse_of_tokens h hcap (tokenize_write r h),
      fun _ hs => Parse_of_tokens h hcap hs⟩,
    fun hcap => Parse_panic_of_tokens h hcap (tokenize_write r h), rfl⟩

/-- C1, amended, at the tree of the input of `main`. -/
theorem C1_parse_write_roundtrip_witness :
    mainRelation.wellFormed = true ∧ Parse mainRelation.write = .ok mainRelation :=
  ⟨by decide, ((C1_parse_write_roundtrip mainRelation (by decide)).1 (by decide)).1⟩

/-- C2: soundness of `Parse`. When `Parse` succeeds on an input with tree
`r`, the tree is well-formed (so every attribute is written with a name),
and the token sequence of the input is the token sequence of `r` written
back in the notation: an identifier, `(`, the attributes of `r` in order and
separated by `,`, then `)`, nothing else; there is at least one attribute. -/
theorem C2_parse_sound (s : String) (r : RelationDefinition) (h : Parse s = .ok r) :
    r.wellFormed = true ∧
    tokenize s.data = tokenize r.write.data ∧
    tokenize s.data = .ok (relationTokens r) ∧
    ∃ a more, r.Attributes = a :: more ∧
      relationTokens r = identToken r.Name :: opToken "(" ::
        (attributeTokens a ++ moreAttributesTokens more ++ [opToken ")"]) := by
  obtain ⟨ht, w⟩ := Parse_ok_tokens h
  refine ⟨w, by rw [ht, tokenize_write r w], ht, ?_⟩
  obtain ⟨name, attrs⟩ := r
  obtain ⟨_, hne, _⟩ := (RelationDefinition.wellFormed_iff _).mp w
  cases attrs with
  | nil => exact absurd rfl hne
  | cons a more => exact ⟨a, more, rfl, rfl⟩

/-- C2 at `R ( _a_,b->S(c) )`. -/
theorem C2_parse_sound_witness :
    Parse "R ( _a_,b->S(c) )" = .ok smallRelation ∧
    smallRelation.wellFormed = true ∧
    tokenize "R ( _a_,b->S(c) )".data = tokenize smallRelation.write.data :=
  ⟨by decide, (C2_parse_sound "R ( _a_,b->S(c) )" smallRelation (by decide)).1,
    (C2_parse_sound "R ( _a_,b->S(c) )" smallRelation (by decide)).2.1⟩

/-- C3: `Parse` of `MyRelation(a -> OtherRelation(b),_b_,c,_d_ -> D(c))`
succeeds with name `MyRelation` and exactly the four attributes `a` (plain,
foreign key to `OtherRelation(b)`), `b` (primary key, no foreign key), `c`
(plain, no foreign key), `d` (primary key, foreign key to `D(c)`), in this
order; `GetPKAttributes` returns the attributes named `b`, `d` and `GetFKs`
those named `a`, `d`. -/
theorem C3_main_example :
    Parse "MyRelation(a -> OtherRelation(b),_b_,c,_d_ -> D(c))" =
      .ok ⟨"MyRelation",
        [⟨none, some "a", some ⟨"OtherRelation", "b"⟩⟩, ⟨some "b", none, none⟩,
         ⟨none, some "c", none⟩, ⟨some "d", none, some ⟨"D", "c"⟩⟩]⟩ ∧
    mainRelation.Attributes.map (fun a => (a.Name, a.IsPK, a.IsFK)) =
      [(some "a", false, true), (some "b", true, false), (some "c", false, false),
       (some "d", true, true)] ∧
    mainRelation.GetPKAttributes.map Attribute.Name = [some "b", some "d"] ∧
    mainRelation.GetFKs.map Attribute.Name = [some "a", some "d"] ∧
    Parse "MyRelation(a -> OtherRelation(b),_b_,c,_d_ -> D(c))" = .ok mainRelation := by
  decide

/-- C4: `GetPKAttributes` keeps, in their order and with their multiplicity,
exactly the attributes with `IsPK` (`PK` non-nil): it is the filter of
`Attributes` by `IsPK`, a subsequence of `Attributes`; each of its elements
has `IsPK`, no attribute with `IsPK` is left out, and it is empty when no
attribute has `IsPK`. -/
theorem C4_GetPKAttributes_filter (r : RelationDefinition) :
    r.GetPKAttributes = r.Attributes.filter (fun a => a.IsPK) ∧
    List.Sublist r.GetPKAttributes r.Attributes ∧
    (∀ a ∈ r.GetPKAttributes, a.IsPK = true) ∧
    (∀ a ∈ r.Attributes, a.IsPK = true → a ∈ r.GetPKAttributes) ∧
    (∀ a : Attribute, a.IsPK = true → r.GetPKAttributes.count a = r.Attributes.count a) ∧
    ((∀ a ∈ r.Attributes, a.IsPK = false) → r.GetPKAttributes = []) ∧
    (∀ a : Attribute, a.IsPK = true ↔ a.PK ≠ none) := by
  have e := GetPKAttributes_eq_filter r
  refine ⟨e, ?_, ?_, ?_, ?_, ?_, ?_⟩
  · rw [e]; exact List.filter_sublist _
  · intro a ha; rw [e] at ha; exact (List.mem_filter.mp ha).2
  · intro a ha hp; rw [e]; exact List.mem_filter.mpr ⟨ha, hp⟩
  · intro a hp; rw [e, List.count_filter hp]
  · intro hall; rw [e, List.filter_eq_nil_iff]
    intro a ha; simp [hall a ha]
  · intro a; simp [Attribute.IsPK, Option.isSome_iff_ne_none]

/-- C4 on a hand-built relation the grammar cannot produce: a repeated
attribute and one with both names set. -/
theorem C4_GetPKAttributes_filter_witness :
    (RelationDefinition.mk "" [⟨some "k", some "x", none⟩, ⟨none, none, none⟩,
      ⟨some "k", some "x", none⟩]).GetPKAttributes =
      [⟨some "k", some "x", none⟩, ⟨some "k", some "x", none⟩] := by
  rw [(C4_GetPKAttributes_filter _).1]; decide

/-- C5: `GetFKs` keeps, in their order and with their multiplicity, exactly
the attributes with `IsFK` (`FK` non-nil): it is the filter of `Attributes`
by `IsFK`, a subsequence of `Attributes`; each of its elements has `IsFK`,
no attribute with `IsFK` is left out, and it is empty when no attribute has
`IsFK`. -/
theorem C5_GetFKs_filter (r : RelationDefinition) :
    r.GetFKs = r.Attributes.filter (fun a => a.IsFK) ∧
    List.Sublist r.GetFKs r.Attributes ∧
    (∀ a ∈ r.GetFKs, a.IsFK = true) ∧
    (∀ a ∈ r.Attributes, a.IsFK = true → a ∈ r.GetFKs) ∧
    (∀ a : Attribute, a.IsFK = true → r.GetFKs.count a = r.Attributes.count a) ∧
    ((∀ a ∈ r.Attributes, a.IsFK = false) → r.GetFKs = []) ∧
    (∀ a : Attribute, a.IsFK = true ↔ a.FK ≠ none) := by
  have e := GetFKs_eq_filter r
  refine ⟨e, ?_, ?_, ?_, ?_, ?_, ?_⟩
  · rw [e]; exact List.filter_sublist _
  · intro a ha; rw [e] at ha; exact (List.mem_filter.mp ha).2
  · intro a ha hp; rw [e]; exact List.mem_filter.mpr ⟨ha, hp⟩
  · intro a hp; rw [e, List.count_filter hp]
  · intro hall; rw [e, List.filter_eq_nil_iff]
    intro a ha; simp [hall a ha]
  · intro a; simp [Attribute.IsFK, Option.isSome_iff_ne_none]

/-- C5 on a hand-built relation with a repeated foreign-key attribute. -/
theorem C5_GetFKs_filter_witness :
    (RelationDefinition.mk "" [⟨none, none, some ⟨"T", "e"⟩⟩, ⟨none, some "x", none⟩,
      ⟨none, none, some ⟨"T", "e"⟩⟩]).GetFKs =
      [⟨none, none, some ⟨"T", "e"⟩⟩, ⟨none, none, some ⟨"T", "e"⟩⟩] := by
  rw [(C5_GetFKs_filter _).1]; decide

/-- C6: when `Parse` succeeds, the relation name is an identifier and every
attribute of the result has exactly one of `PK` and `AttrName` non-nil, so
`Name()` is non-nil; the string it points to is a non-empty identifier, and
it is the identifier written for that attribute in the input: the tokens of
the input are the relation name, `(`, the tokens of the attributes in order
and separated by `,`, and `)`, where the tokens of an attribute are `_`, its
name, `_` for a primary key and its name alone otherwise, followed by the
tokens of its foreign key. -/
theorem C6_parsed_names (s : String) (r : RelationDefinition) (h : Parse s = .ok r) :
    isIdentifier r.Name = true ∧
    tokenize s.data = .ok (relationTokens r) ∧
    (∃ a more, r.Attributes = a :: more ∧
      relationTokens r = identToken r.Name :: opToken "(" ::
        (attributeTokens a ++ moreAttributesTokens more ++ [opToken ")"])) ∧
    ∀ a ∈ r.Attributes,
      (a.PK = none ↔ a.AttrName ≠ none) ∧
      ∃ n, a.Name = some n ∧ n ≠ "" ∧ isIdentifier n = true ∧
        ((a.PK = some n ∧ a.AttrName = none ∧
            attributeTokens a = opToken "_" :: identToken n :: opToken "_" :: fkTokens a.FK) ∨
         (a.PK = none ∧ a.AttrName = some n ∧
            attributeTokens a = identToken n :: fkTokens a.FK)) := by
  obtain ⟨ht, w⟩ := Parse_ok_tokens h
  obtain ⟨hn, hne, hall⟩ := (RelationDefinition.wellFormed_iff _).mp w
  refine ⟨hn, ht, ?_, fun a ha => ⟨(Attribute.wellFormed_name (hall a ha)).1,
    Attribute.wellFormed_shape (hall a ha)⟩⟩
  obtain ⟨name, attrs⟩ := r
  cases attrs with
  | nil => exact absurd rfl hne
  | cons a more => exact ⟨a, more, rfl, rfl⟩

/-- C6 at `R ( _a_,b->S(c) )`: the second attribute is named `b`, the
identifier written at its place. -/
theorem C6_parsed_names_witness :
    Parse "R ( _a_,b->S(c) )" = .ok smallRelation ∧
    tokenize "R ( _a_,b->S(c) )".data = .ok (relationTokens smallRelation) ∧
    ∃ n, (Attribute.mk none (some "b") (some ⟨"S", "c"⟩)).Name = some n ∧ n ≠ "" ∧
      isIdentifier n = true ∧
      (((Attribute.mk none (some "b") (some ⟨"S", "c"⟩)).PK = some n ∧
          (Attribute.mk none (some "b") (some ⟨"S", "c"⟩)).AttrName = none ∧
          attributeTokens (Attribute.mk none (some "b") (some ⟨"S", "c"⟩)) =
            opToken "_" :: identToken n :: opToken "_" ::
              fkTokens (Attribute.mk none (some "b") (some ⟨"S", "c"⟩)).FK) ∨
       ((Attribute.mk none (some "b") (some ⟨"S", "c"⟩)).PK = none ∧
          (Attribute.mk none (some "b") (some ⟨"S", "c"⟩)).AttrName = some n ∧
          attributeTokens (Attribute.mk none (some "b") (some ⟨"S", "c"⟩)) =
            identToken n :: fkTokens (Attribute.mk none (some "b") (some ⟨"S", "c"⟩)).FK)) :=
  ⟨by decide, (C6_parsed_names "R ( _a_,b->S(c) )" smallRelation (by decide)).2.1,
    ((C6_parsed_names "R ( _a_,b->S(c) )" smallRelation (by decide)).2.2.2
      ⟨none, some "b", some ⟨"S", "c"⟩⟩ (by decide)).2⟩

theorem head_spaces_then (ws rest : List Char) (c : Char) (hws : ∀ x ∈ ws, isSpace x = true)
    (hc : isAlnum c = false) : ∀ x ∈ (ws ++ c :: rest).head?, isAlnum x = false := by
  cases ws with
  | nil => intro x hx; cases hx; exact hc
  | cons w ws =>
    intro x hx
    cases hx
    exact isSpace_not_isAlnum (hws _ (List.mem_cons_self _ _))

/-- The tokens of `R()` for an identifier `R`, with any whitespace around
the tokens. -/
theorem tokenize_empty_list (R : String) (w0 w1 w2 w3 : List Char) (hR : isIdentifier R = true)
    (h0 : ∀ c ∈ w0, isSpace c = true) (h1 : ∀ c ∈ w1, isSpace c = true)
    (h2 : ∀ c ∈ w2, isSpace c = true) (h3 : ∀ c ∈ w3, isSpace c = true) :
    tokenize (w0 ++ (R.data ++ (w1 ++ '(' :: (w2 ++ ')' :: w3)))) =
      .ok [identToken R, opToken "(", opToken ")"] := by
  have e3 : tokenize (')' :: w3) = .ok [opToken ")"] := by
    rw [tokenize_rparen]
    have := tokenize_spaces w3 [] h3
    rw [List.append_nil] at this
    rw [this]; rfl
  have e2 : tokenize ('(' :: (w2 ++ ')' :: w3)) = .ok [opToken "(", opToken ")"] := by
    rw [tokenize_lparen, tokenize_spaces w2 _ h2, e3]; rfl
  rw [tokenize_spaces w0 _ h0,
    tokenize_identifier_ok R _ [opToken "(", opToken ")"] hR
      (head_spaces_then w1 _ '(' h1 (by decide))
      (by rw [tokenize_spaces w1 _ h1, e2])]

/-- The tokens of `R(_n_)` for an identifier `n`, with any whitespace
between the underscores and the name. -/
theorem tokenize_singlePK (n : String) (w1 w2 : List Char) (hn : isIdentifier n = true)
    (h1 : ∀ c ∈ w1, isSpace c = true) (h2 : ∀ c ∈ w2, isSpace c = true) :
    tokenize ('R' :: '(' :: '_' :: (w1 ++ (n.data ++ (w2 ++ [ '_', ')'])))) =
      .ok (relationTokens (singlePK n)) := by
  have e3 : tokenize [ '_', ')'] = .ok [opToken "_", opToken ")"] := by decide
  have e2 : tokenize (n.data ++ (w2 ++ [ '_', ')'])) =
      .ok [identToken n, opToken "_", opToken ")"] :=
    tokenize_identifier_ok n _ _ hn (head_spaces_then w2 _ '_' h2 (by decide))
      (by rw [tokenize_spaces w2 _ h2, e3])
  have e1 : tokenize ('(' :: '_' :: (w1 ++ (n.data ++ (w2 ++ [ '_', ')'])))) =
      .ok [opToken "(", opToken "_", identToken n, opToken "_", opToken ")"] := by
    rw [tokenize_lparen, tokenize_underscore, tokenize_spaces w1 _ h1, e2]; rfl
  exact tokenize_identifier_ok "R" _ _ (by decide) (by intro x hx; cases hx; decide) e1

theorem singlePK_wellFormed (n : String) (hn : isIdentifier n = true) :
    (singlePK n).wellFormed = true := by
  rw [RelationDefinition.wellFormed_iff]
  refine ⟨by show isIdentifier "R" = true; decide, by simp [singlePK], ?_⟩
  intro a ha
  simp only [singlePK, List.mem_singleton] at ha
  subst ha
  simp [Attribute.wellFormed, hn]

/-- C7: the attribute list requires at least one attribute. When `Parse`
succeeds the result has at least one attribute, and for every identifier `R`
and any whitespace around the tokens `Parse` of `R()` fails, at the closing
parenthesis, and returns no relation. -/
theorem C7_at_least_one_attribute :
    (∀ (s : String) (r : RelationDefinition), Parse s = .ok r → 1 ≤ r.Attributes.length) ∧
    (∀ (R : String) (w0 w1 w2 w3 : List Char), isIdentifier R = true →
      (∀ c ∈ w0 ++ w1 ++ w2 ++ w3, isSpace c = true) →
      Parse (String.mk (w0 ++ (R.data ++ (w1 ++ '(' :: (w2 ++ ')' :: w3))))) =
        .error (.grammar [opToken ")"])) := by
  constructor
  · intro s r h
    obtain ⟨_, w⟩ := Parse_ok_tokens h
    obtain ⟨_, hne, _⟩ := (RelationDefinition.wellFormed_iff _).mp w
    cases hr : r.Attributes with
    | nil => exact absurd hr hne
    | cons a more => simp
  · intro R w0 w1 w2 w3 hR hw
    have ht := tokenize_empty_list R w0 w1 w2 w3 hR
      (fun c hc => hw c (by simp [hc])) (fun c hc => hw c (by simp [hc]))
      (fun c hc => hw c (by simp [hc])) (fun c hc => hw c (by simp [hc]))
    simp only [Parse, ht]
    rfl

/-- C7 at `R(a)`, which has one attribute, and at ` Rel (\t) `, which fails. -/
theorem C7_at_least_one_attribute_witness :
    1 ≤ (RelationDefinition.mk "R" [⟨none, some "a", none⟩]).Attributes.length ∧
    Parse (String.mk ([ ' '] ++ ("Rel".data ++ ([ ' '] ++ '(' :: ([Char.ofNat 9] ++ ')' :: [ ' '])))))
      = .error (.grammar [opToken ")"]) :=
  ⟨C7_at_least_one_attribute.1 "R(a)" _ (by decide),
   C7_at_least_one_attribute.2 "Rel" [ ' '] [ ' '] [Char.ofNat 9] [ ' '] (by decide) (by decide)⟩

/-- C8: whitespace between tokens is insignificant. The lexer drops every
run of whitespace before, between and after texts that lex (and texts that
cannot run into one identifier lex to the same tokens with no whitespace
between them); two inputs that lex to the same sequence of tokens have the
same outcome: `Parse` succeeds on both with equal trees, or on neither; so
the choice of the whitespace run between two texts does not change the
outcome. -/
theorem C8_whitespace_insignificant :
    (∀ (a b ws : List Char) (ta tb : List Token), tokenize a = .ok ta → tokenize b = .ok tb →
      (∀ c ∈ ws, isSpace c = true) →
      (ws ≠ [] ∨ endsInOperator ta ∨ ∀ x ∈ b.head?, isAlnum x = false) →
      tokenize (a ++ ws ++ b) = .ok (ta ++ tb)) ∧
    (∀ (s1 s2 : String) (ts : List Token), tokenize s1.data = .ok ts →
      tokenize s2.data = .ok ts →
      Parse s1 = Parse s2 ∧
      ((∃ r, Parse s1 = .ok r ∧ Parse s2 = .ok r) ∨
        ((∀ r, Parse s1 ≠ .ok r) ∧ ∀ r, Parse s2 ≠ .ok r))) ∧
    (∀ (a b ws1 ws2 : List Char) (ta tb : List Token), tokenize a = .ok ta →
      tokenize b = .ok tb → ws1 ≠ [] → ws2 ≠ [] →
      (∀ c ∈ ws1, isSpace c = true) → (∀ c ∈ ws2, isSpace c = true) →
      Parse (String.mk (a ++ ws1 ++ b)) = Parse (String.mk (a ++ ws2 ++ b))) := by
  have same : ∀ (s1 s2 : String) (ts : List Token), tokenize s1.data = .ok ts →
      tokenize s2.data = .ok ts → Parse s1 = Parse s2 := by
    intro s1 s2 ts h1 h2
    simp only [Parse, h1, h2]
  refine ⟨tokenize_between, ?_, ?_⟩
  · intro s1 s2 ts h1 h2
    have e := same s1 s2 ts h1 h2
    refine ⟨e, ?_⟩
    rw [← e]
    cases hp : Parse s1 with
    | ok r => exact Or.inl ⟨r, rfl, rfl⟩
    | error e1 => exact Or.inr ⟨fun r hr => (by cases hr), fun r hr => (by cases hr)⟩
    | panic => exact Or.inr ⟨fun r hr => (by cases hr), fun r hr => (by cases hr)⟩
  · intro a b ws1 ws2 ta tb ha hb n1 n2 h1 h2
    exact same _ _ (ta ++ tb) (tokenize_between a b ws1 ta tb ha hb h1 (Or.inl n1))
      (tokenize_between a b ws2 ta tb ha hb h2 (Or.inl n2))

/-- C8 at `R(_a_,b->S(c))` and the same tokens spread over blanks, a tab
and a newline, and at `R(a` and `b)` with a blank or a newline between. -/
theorem C8_whitespace_insignificant_witness :
    Parse "R(_a_,b->S(c))" = Parse " R (_ a _ ,\n b\t-> S ( c ) ) " ∧
    Parse (String.mk ("R(a".data ++ [ ' '] ++ "b)".data)) =
      Parse (String.mk ("R(a".data ++ [Char.ofNat 10] ++ "b)".data)) :=
  ⟨(C8_whitespace_insignificant.2.1 "R(_a_,b->S(c))" " R (_ a _ ,\n b\t-> S ( c ) ) "
      (relationTokens smallRelation) (by decide) (by decide)).1,
   C8_whitespace_insignificant.2.2 "R(a".data "b)".data [ ' '] [Char.ofNat 10]
      [identToken "R", opToken "(", identToken "a"] [identToken "b", opToken ")"]
      (by decide) (by decide) (by decide) (by decide) (by decide) (by decide)⟩

/-- C9, as stated, fails: `Parse` accepts the spaced forms `R(_ n _)`,
`R(_ n_)` and `R(_n _)` and returns the primary-key attribute `n`. -/
theorem C9_spaced_primary_key_accepted :
    Parse "R(_ n _)" = .ok ⟨"R", [⟨some "n", none, none⟩]⟩ ∧
    Parse "R(_ n_)" = .ok ⟨"R", [⟨some "n", none, none⟩]⟩ ∧
    Parse "R(_n _)" = .ok ⟨"R", [⟨some "n", none, none⟩]⟩ := by
  decide

/-- C9, amended: the primary-key form is the three tokens `_`, identifier,
`_`, and whitespace between them is skipped like any other: for every
identifier `n`, `Parse` accepts `R(_n_)` and also `R(_ n _)`, `R(_ n_)` and
`R(_n _)`, each with the one primary-key attribute `n` as result. -/
theorem C9_primary_key_tokens (n : String) (h : isIdentifier n = true) :
    Parse ("R(_" ++ n ++ "_)") = .ok ⟨"R", [⟨some n, none, none⟩]⟩ ∧
    Parse ("R(_ " ++ n ++ " _)") = .ok ⟨"R", [⟨some n, none, none⟩]⟩ ∧
    Parse ("R(_ " ++ n ++ "_)") = .ok ⟨"R", [⟨some n, none, none⟩]⟩ ∧
    Parse ("R(_" ++ n ++ " _)") = .ok ⟨"R", [⟨some n, none, none⟩]⟩ := by
  have w := singlePK_wellFormed n h
  have hcap : (singlePK n).Attributes.length ≤ MaxIterations := by
    show 1 ≤ 1000000
    omega
  have hb : ∀ c ∈ [ ' '], isSpace c = true := by decide
  have hn : ∀ c ∈ ([] : List Char), isSpace c = true := by simp
  refine ⟨?_, ?_, ?_, ?_⟩
  · exact Parse_of_tokens w hcap (tokenize_singlePK n [] [] h hn hn)
  · exact Parse_of_tokens w hcap (tokenize_singlePK n [ ' '] [ ' '] h hb hb)
  · exact Parse_of_tokens w hcap (tokenize_singlePK n [ ' '] [] h hb hn)
  · exact Parse_of_tokens w hcap (tokenize_singlePK n [] [ ' '] h hn hb)

/-- C9, amended, at the identifier `key1`. -/
theorem C9_primary_key_tokens_witness :
    isIdentifier "key1" = true ∧
    Parse ("R(_ " ++ "key1" ++ " _)") = .ok ⟨"R", [⟨some "key1", none, none⟩]⟩ :=
  ⟨by decide, (C9_primary_key_tokens "key1" (by decide)).2.1⟩

/-- C10: `Parse` rejects trailing input. When `Parse` succeeds on `s` and
`t` lexes to at least one token, `Parse` of `s` followed by `t` fails at the
first token of `t` and returns no relation. -/
theorem C10_trailing_input_rejected (s t : String) (r : RelationDefinition) (tok : Token)
    (toks : List Token) (h : Parse s = .ok r) (ht : tokenize t.data = .ok (tok :: toks)) :
    Parse (s ++ t) = .error (.grammar (tok :: toks)) := by
  obtain ⟨hs, w⟩ := Parse_ok_tokens h
  apply Parse_of_tokens_trailing w (Parse_ok_cap h)
  rw [String.data_append, tokenize_append s.data t.data _ hs (relationTokens_endsInOperator r), ht]
  rfl

/-- C10 at `R(a)` followed by `S(b)`. -/
theorem C10_trailing_input_rejected_witness :
    Parse "R(a)" = .ok ⟨"R", [⟨none, some "a", none⟩]⟩ ∧
    Parse ("R(a)" ++ "S(b)") = .error (.grammar
      [identToken "S", opToken "(", identToken "b", opToken ")"]) :=
  ⟨by decide,
   C10_trailing_input_rejected "R(a)" "S(b)" ⟨"R", [⟨none, some "a", none⟩]⟩ (identToken "S")
     [opToken "(", identToken "b", opToken ")"] (by decide) (by decide)⟩

/-! ## The claims on errors, tokens and totality -/

theorem Token.valid_not_minus {t : Token} (h : t.valid = true) :
    t.Value ≠ "-" ∧ t.Value ≠ ">" := by
  obtain ⟨k, v⟩ := t
  cases k with
  | Ident =>
    simp only [Token.valid] at h
    exact ⟨isIdentifier_ne h (by decide), isIdentifier_ne h (by decide)⟩
  | Operators =>
    simp only [Token.valid, Bool.or_eq_true, decide_eq_true_eq] at h
    rcases h with (((h | h) | h) | h) | h <;> rw [h] <;> decide

theorem isIdentifier_no_underscore {n : String} (h : isIdentifier n = true) :
    '_' ∉ n.data := by
  obtain ⟨c, body, hd, hc, hb⟩ := isIdentifier_data h
  intro hmem
  rw [hd] at hmem
  rcases List.mem_cons.mp hmem with hm | hm
  · rw [← hm] at hc; revert hc; decide
  · have := hb _ hm; revert this; decide

theorem tokenize_a_b (a b : String) (rest : List Char) (ts : List Token)
    (ha : isIdentifier a = true) (hb : isIdentifier b = true)
    (hr : ∀ x ∈ rest.head?, isAlnum x = false) (ht : tokenize rest = .ok ts) :
    tokenize (a.data ++ '_' :: (b.data ++ rest)) =
      .ok (identToken a :: opToken "_" :: identToken b :: ts) :=
  tokenize_identifier_ok a _ _ ha (by intro x hx; cases hx; decide)
    (by rw [tokenize_underscore, tokenize_identifier_ok b rest ts hb hr ht]; rfl)

/-- C11: an input that is not a concatenation of whitespace runs,
identifiers and the operators `->`, `,`, `(`, `)`, `_` fails at the lexical
level, at a position that starts no token, and `Parse` returns no relation
for it; the inputs that lex are exactly those concatenations, and `Parse`
reports a lexical error only for an input that is none; `Parse` of `R(1a)`
fails with a lexical error at the `1`, not with a grammar error. -/
theorem C11_lexical_failure :
    (∀ cs : List Char, (∃ ts, tokenize cs = .ok ts) ↔ tokenText cs) ∧
    (∀ s : String, ¬ tokenText s.data →
      (∃ rest, rest ≠ [] ∧ matchRegexp rest = none ∧ rest <:+ s.data ∧
        tokenize s.data = .error (.lex rest)) ∧ ∃ e, Parse s = .error e) ∧
    (∀ (s : String) (rest : List Char), Parse s = .error (.lex rest) → ¬ tokenText s.data) ∧
    Parse "R(1a)" = .error (.lex [ '1', 'a', ')']) := by
  refine ⟨tokenize_ok_iff_tokenText, ?_, ?_, by decide⟩
  · intro s hs
    cases ht : tokenize s.data with
    | ok ts => exact absurd ((tokenize_ok_iff_tokenText _).mp ⟨ts, ht⟩) hs
    | error e =>
      obtain ⟨rest, h1, h2, h3, h4⟩ := tokenize_error ht
      subst h1
      exact ⟨⟨rest, h2, h3, h4, rfl⟩, _, Parse_lex_error ht⟩
  · intro s rest h htext
    obtain ⟨ts, ht⟩ := (tokenize_ok_iff_tokenText _).mpr htext
    simp only [Parse, ht] at h
    obtain ⟨r, hr⟩ := parseTokens_error h
    cases hr

/-- C11 at `R(1a)`, which is no concatenation of token pieces. -/
theorem C11_lexical_failure_witness :
    ¬ tokenText "R(1a)".data ∧
    (∃ rest, rest ≠ [] ∧ matchRegexp rest = none ∧ rest <:+ "R(1a)".data ∧
      tokenize "R(1a)".data = .error (.lex rest)) ∧ ∃ e, Parse "R(1a)" = .error e :=
  have h : ¬ tokenText "R(1a)".data := fun ht => by
    obtain ⟨ts, hts⟩ := (C11_lexical_failure.1 _).mpr ht
    have hf : tokenize "R(1a)".data = .error (.lex [ '1', 'a', ')']) := by decide
    rw [hf] at hts
    cases hts
  ⟨h, C11_lexical_failure.2.1 "R(1a)" h⟩

/-- C12: a definition whose closing parenthesis is missing fails at the
grammar level. An input on which `Parse` succeeds ends in `)` and
whitespace; the input without that `)` lexes, to the tokens of the result
without the last one, and `Parse` fails on it with a grammar error at the
end of the input. -/
theorem C12_missing_rparen (s : String) (r : RelationDefinition) (h : Parse s = .ok r) :
    (∃ pre ws, s.data = pre ++ ')' :: ws ∧ ∀ c ∈ ws, isSpace c = true) ∧
    ∀ pre ws, s.data = pre ++ ')' :: ws → (∀ c ∈ ws, isSpace c = true) →
      tokenize (pre ++ ws) = .ok (relationTokens r).dropLast ∧
      Parse (String.mk (pre ++ ws)) = .error (.grammar []) := by
  obtain ⟨ht, w⟩ := Parse_ok_tokens h
  have hl := (tokenize_iff_Lexes _ _).mp ht
  constructor
  · exact Lexes_last_rparen hl
      (identToken r.Name :: opToken "(" :: attributesTokens r.Attributes) rfl
  · intro pre ws e hw
    obtain ⟨ts0, h1, h2⟩ := Lexes_remove_rparen hl pre ws e hw
    have h3 : tokenize (pre ++ ws) = .ok (relationTokens r).dropLast := by
      rw [tokenize_of_Lexes h2, h1, List.dropLast_concat]
    refine ⟨h3, ?_⟩
    simp only [Parse, h3]
    exact parseTokens_missing_rparen r w (Parse_ok_cap h)

/-- C12 at `R(a -> B(c))` without its last `)`. -/
theorem C12_missing_rparen_witness :
    Parse "R(a -> B(c))" = .ok ⟨"R", [⟨none, some "a", some ⟨"B", "c"⟩⟩]⟩ ∧
    Parse "R(a -> B(c)" = .error (.grammar []) :=
  ⟨by decide,
   ((C12_missing_rparen "R(a -> B(c))" ⟨"R", [⟨none, some "a", some ⟨"B", "c"⟩⟩]⟩
      (by decide)).2 "R(a -> B(c)".data [] rfl (by simp)).2⟩

/-- C13: key role and foreign key are independent. For all identifiers `R`,
`d`, `T`, `e`, `Parse` of `R(_d_ -> T(e))` succeeds with the single
attribute with `PK` `d` and `FK` `(T, e)`; `IsPK` and `IsFK` are both true
on it, its `Name` is `d`, and it is in both `GetPKAttributes` and `GetFKs`
of the result. -/
theorem C13_primary_and_foreign_key (R d T e : String) (hR : isIdentifier R = true)
    (hd : isIdentifier d = true) (hT : isIdentifier T = true) (he : isIdentifier e = true) :
    Parse (R ++ "(_" ++ d ++ "_ -> " ++ T ++ "(" ++ e ++ "))") =
      .ok ⟨R, [⟨some d, none, some ⟨T, e⟩⟩]⟩ ∧
    (Attribute.mk (some d) none (some ⟨T, e⟩)).IsPK = true ∧
    (Attribute.mk (some d) none (some ⟨T, e⟩)).IsFK = true ∧
    (Attribute.mk (some d) none (some ⟨T, e⟩)).Name = some d ∧
    (keyAndReference R d T e).GetPKAttributes = [⟨some d, none, some ⟨T, e⟩⟩] ∧
    (keyAndReference R d T e).GetFKs = [⟨some d, none, some ⟨T, e⟩⟩] := by
  have w : (keyAndReference R d T e).wellFormed = true := by
    rw [RelationDefinition.wellFormed_iff]
    refine ⟨hR, by simp [keyAndReference], ?_⟩
    intro a ha
    simp only [keyAndReference, List.mem_singleton] at ha
    subst ha
    simp [Attribute.wellFormed, ForeignKeyDefinition.wellFormed, hd, hT, he]
  have l1 : "(_".data = [ '(', '_'] := rfl
  have l2 : "_ -> ".data = [ '_', ' ', '-', '>', ' '] := rfl
  have l3 : "(".data = [ '('] := rfl
  have l4 : "))".data = [ ')', ')'] := rfl
  have e1 : (R ++ "(_" ++ d ++ "_ -> " ++ T ++ "(" ++ e ++ "))").data =
      (keyAndReference R d T e).write.data := by
    simp [String.data_append, l1, l2, l3, l4, keyAndReference, RelationDefinition.write,
      writeAttributes, writeAttribute, writeAttributeName, writeFK, writeMoreAttributes]
  have hcap : (keyAndReference R d T e).Attributes.length ≤ MaxIterations := by
    show 1 ≤ 1000000
    omega
  refine ⟨?_, rfl, rfl, rfl, rfl, rfl⟩
  exact Parse_of_tokens w hcap (by rw [e1]; exact tokenize_write _ w)

/-- C13 at `Orders(_id_ -> Customer(id))`. -/
theorem C13_primary_and_foreign_key_witness :
    Parse ("Orders" ++ "(_" ++ "id" ++ "_ -> " ++ "Customer" ++ "(" ++ "id" ++ "))") =
      .ok ⟨"Orders", [⟨some "id", none, some ⟨"Customer", "id"⟩⟩]⟩ :=
  (C13_primary_and_foreign_key "Orders" "id" "Customer" "id" (by decide) (by decide)
    (by decide) (by decide)).1

/-- C14: `Parse` of `S(x,y,z)` succeeds with name `S` and exactly the three
attributes `x`, `y`, `z` in that order, each plain and without a foreign
key; `GetPKAttributes` and `GetFKs` of the result are both empty. -/
theorem C14_plain_attributes :
    Parse "S(x,y,z)" =
      .ok ⟨"S", [⟨none, some "x", none⟩, ⟨none, some "y", none⟩, ⟨none, some "z", none⟩]⟩ ∧
    (RelationDefinition.mk "S"
      [⟨none, some "x", none⟩, ⟨none, some "y", none⟩, ⟨none, some "z", none⟩]).Attributes.map
        (fun a => (a.Name, a.IsPK, a.IsFK)) =
      [(some "x", false, false), (some "y", false, false), (some "z", false, false)] ∧
    (RelationDefinition.mk "S"
      [⟨none, some "x", none⟩, ⟨none, some "y", none⟩, ⟨none, some "z", none⟩]).GetPKAttributes
        = [] ∧
    (RelationDefinition.mk "S"
      [⟨none, some "x", none⟩, ⟨none, some "y", none⟩, ⟨none, some "z", none⟩]).GetFKs = [] := by
  decide

/-- C15: the lexer emits `->` as one operator token and never splits it. A
`-` directly followed by `>` at a token start gives the single token `->`;
no token has the text `-` or `>`; lexing fails on every input that has a `-`
not directly followed by `>`, or a `>` not directly after a `-`; `Parse` of
`R(a - > B(c))` and of `R(a > B(c))` fails at the lexical level. -/
theorem C15_arrow_token :
    (∀ cs : List Char,
      tokenize ('-' :: '>' :: cs) = Except.map (List.cons (opToken "->")) (tokenize cs)) ∧
    (∀ (cs : List Char) (ts : List Token), tokenize cs = .ok ts →
      ∀ t ∈ ts, t.Value ≠ "-" ∧ t.Value ≠ ">") ∧
    (∀ pre post : List Char, post.head? ≠ some '>' →
      ∃ rest, tokenize (pre ++ '-' :: post) = .error (.lex rest)) ∧
    (∀ pre post : List Char, pre.getLast? ≠ some '-' →
      ∃ rest, tokenize (pre ++ '>' :: post) = .error (.lex rest)) ∧
    Parse "R(a - > B(c))" = .error (.lex "- > B(c))".data) ∧
    Parse "R(a > B(c))" = .error (.lex "> B(c))".data) := by
  refine ⟨tokenize_arrow, ?_, ?_, ?_, by decide, by decide⟩
  · intro cs ts h t ht
    exact Token.valid_not_minus (tokenize_valid h t ht)
  · intro pre post hp
    cases ht : tokenize (pre ++ '-' :: post) with
    | ok ts =>
      obtain ⟨post1, e⟩ := Lexes_minus ((tokenize_iff_Lexes _ _).mp ht) pre post rfl
      rw [e] at hp
      exact absurd rfl hp
    | error e =>
      obtain ⟨rest, h1, _⟩ := tokenize_error ht
      exact ⟨rest, by rw [h1]⟩
  · intro pre post hp
    cases ht : tokenize (pre ++ '>' :: post) with
    | ok ts =>
      obtain ⟨pre1, e⟩ := Lexes_greater ((tokenize_iff_Lexes _ _).mp ht) pre post rfl
      rw [e, List.getLast?_concat] at hp
      exact absurd rfl hp
    | error e =>
      obtain ⟨rest, h1, _⟩ := tokenize_error ht
      exact ⟨rest, by rw [h1]⟩

/-- C15 at `a-b` and `a>b`, which do not lex. -/
theorem C15_arrow_token_witness :
    (∃ rest, tokenize ([ 'a'] ++ '-' :: [ 'b']) = .error (.lex rest)) ∧
    (∃ rest, tokenize ([ 'a'] ++ '>' :: [ 'b']) = .error (.lex rest)) :=
  ⟨C15_arrow_token.2.2.1 [ 'a'] [ 'b'] (by decide),
   C15_arrow_token.2.2.2.1 [ 'a'] [ 'b'] (by decide)⟩

/-- C16: an identifier token is a maximal run of a letter followed by
letters and digits and has no underscore. The identifier matched at a
letter takes every letter and digit that follows; the lexer turns `a_b`
into the tokens `a`, `_`, `b`; for all identifiers `a` and `b`, `Parse` of
`R(a_b)` fails with a grammar error at the `_`; no parsed relation name,
attribute name or foreign-key name contains an underscore. -/
theorem C16_identifier_without_underscore :
    (∀ (cs : List Char) (ts : List Token), tokenize cs = .ok ts →
      ∀ t ∈ ts, t.Kind = TokenType.Ident → isIdentifier t.Value = true ∧ '_' ∉ t.Value.data) ∧
    (∀ (c : Char) (cs : List Char), isLetter c = true →
      matchRegexp (c :: cs) = some (some (identToken (String.mk (c :: cs.takeWhile isAlnum))),
        cs.dropWhile isAlnum) ∧
      ∀ x ∈ (cs.dropWhile isAlnum).head?, isAlnum x = false) ∧
    (∀ a b : String, isIdentifier a = true → isIdentifier b = true →
      tokenize (a.data ++ '_' :: b.data) = .ok [identToken a, opToken "_", identToken b] ∧
      Parse ("R(" ++ a ++ "_" ++ b ++ ")") =
        .error (.grammar [opToken "_", identToken b, opToken ")"])) ∧
    (∀ (s : String) (r : RelationDefinition), Parse s = .ok r →
      '_' ∉ r.Name.data ∧
      ∀ x ∈ r.Attributes, (∀ n, x.Name = some n → '_' ∉ n.data) ∧
        ∀ fk, x.FK = some fk → '_' ∉ fk.RelationName.data ∧ '_' ∉ fk.Attribute.data) := by
  refine ⟨?_, ?_, ?_, ?_⟩
  · intro cs ts h t ht hk
    have hv := (Token.valid_ident (tokenize_valid h t ht) hk).2
    exact ⟨hv, isIdentifier_no_underscore hv⟩
  · intro c cs hc
    have hs : isSpace c = false := by
      cases h : isSpace c with
      | false => rfl
      | true => rw [isSpace_not_isLetter h] at hc; cases hc
    refine ⟨by simp [matchRegexp, hs, hc, identToken], ?_⟩
    intro x hx
    have := List.head?_dropWhile_not isAlnum cs
    rw [Option.mem_def.mp hx] at this
    simpa using this
  · intro a b ha hb
    constructor
    · have := tokenize_a_b a b [] [] ha hb (by simp) rfl
      rwa [List.append_nil] at this
    · have ht : tokenize ("R(" ++ a ++ "_" ++ b ++ ")").data =
          .ok [identToken "R", opToken "(", identToken a, opToken "_", identToken b,
            opToken ")"] := by
        have hin := tokenize_a_b a b [ ')'] [opToken ")"] ha hb (by simp; decide) (by decide)
        have e1 : ("R(" ++ a ++ "_" ++ b ++ ")").data =
            "R".data ++ ('(' :: (a.data ++ '_' :: (b.data ++ [ ')']))) := by
          have l1 : "R(".data = [ 'R', '('] := rfl
          have l2 : "_".data = [ '_'] := rfl
          have l3 : ")".data = [ ')'] := rfl
          have l4 : "R".data = [ 'R'] := rfl
          simp [String.data_append, l1, l2, l3, l4]
        rw [e1]
        exact tokenize_identifier_ok "R" _ _ (by decide) (by intro x hx; cases hx; decide)
          (by rw [tokenize_lparen, hin]; rfl)
      have hne : a ≠ "_" := isIdentifier_ne ha (by decide)
      have hattr : parseAttribute [identToken a, opToken "_", identToken b, opToken ")"] =
          .ok (⟨none, some a, none⟩, [opToken "_", identToken b, opToken ")"]) := by
        simp [parseAttribute, parseAttributeName, parseOptionalFK, expectIdent, identToken,
          opToken, hne]
      have hp : parseTokens [identToken "R", opToken "(", identToken a, opToken "_",
          identToken b, opToken ")"] =
          .error (.grammar [opToken "_", identToken b, opToken ")"]) := by
        have h1 : expectIdent [identToken "R", opToken "(", identToken a, opToken "_",
            identToken b, opToken ")"] =
            .ok ("R", [opToken "(", identToken a, opToken "_", identToken b, opToken ")"]) := rfl
        have h2 : expectLiteral "(" [opToken "(", identToken a, opToken "_", identToken b,
            opToken ")"] = .ok [identToken a, opToken "_", identToken b, opToken ")"] := rfl
        simp only [parseTokens, parseRelationDefinition]
        rw [h1]; simp only
        rw [h2]; simp only
        rw [hattr]
        rfl
      simp only [Parse, ht]
      exact hp
  · intro s r h
    obtain ⟨_, w⟩ := Parse_ok_tokens h
    obtain ⟨hn, _, hall⟩ := (RelationDefinition.wellFormed_iff _).mp w
    refine ⟨isIdentifier_no_underscore hn, fun x hx => ⟨?_, ?_⟩⟩
    · intro n hname
      obtain ⟨_, m, h1, h2, _⟩ := Attribute.wellFormed_name (hall x hx)
      rw [hname] at h1
      cases h1
      exact isIdentifier_no_underscore h2
    · intro fk hfk
      have := Attribute.wellFormed_fk (hall x hx) fk hfk
      simp only [ForeignKeyDefinition.wellFormed, Bool.and_eq_true] at this
      exact ⟨isIdentifier_no_underscore this.1, isIdentifier_no_underscore this.2⟩

/-- C16 at `R(first_name)`. -/
theorem C16_identifier_without_underscore_witness :
    Parse ("R(" ++ "first" ++ "_" ++ "name" ++ ")") =
      .error (.grammar [opToken "_", identToken "name", opToken ")"]) :=
  (C16_identifier_without_underscore.2.2.1 "first" "name" (by decide) (by decide)).2

/-- C17: for every attribute value, hand-built ones included, `Name()`
returns `PK` when `PK` is non-nil, also when `AttrName` is set too, and
`AttrName` otherwise; so `Name()` is nil exactly when `PK` and `AttrName`
are both nil. -/
theorem C17_Name_prefers_PK (a : Attribute) :
    (a.PK ≠ none → a.Name = a.PK) ∧
    (a.PK = none → a.Name = a.AttrName) ∧
    (a.Name = none ↔ a.PK = none ∧ a.AttrName = none) ∧
    (∀ (p n : String) (fk : Option ForeignKeyDefinition),
      (Attribute.mk (some p) (some n) fk).Name = some p) := by
  obtain ⟨pk, name, fk⟩ := a
  cases pk with
  | none => simp [Attribute.Name, Attribute.IsPK]
  | some p => simp [Attribute.Name, Attribute.IsPK]

/-- C17 on a hand-built attribute with both names set. -/
theorem C17_Name_prefers_PK_witness :
    (Attribute.mk (some "k") (some "x") none).Name = some "k" :=
  (C17_Name_prefers_PK ⟨some "k", some "x", none⟩).1 (by decide)

/-- C18, as stated, fails: `Parse` of the well-formed tree `manyKeys`
written in the notation, with one attribute more than the library's cap on
a repetition allows, panics: it returns neither a relation nor an error. -/
theorem C18_neither_over_cap :
    Parse manyKeys.write = .panic ∧
    ¬ ((∃ r, Parse manyKeys.write = .ok r) ∨ (∃ e, Parse manyKeys.write = .error e)) := by
  have h : Parse manyKeys.write = .panic :=
    Parse_panic_of_tokens manyKeys_wellFormed manyKeys_length
      (tokenize_write _ manyKeys_wellFormed)
  refine ⟨h, ?_⟩
  rw [h]
  rintro (⟨r, hr⟩ | ⟨e, he⟩)
  · cases hr
  · cases he

/-- C18, amended: `Parse` ends on every input. A round of the lexer consumes
at least one character, so the rounds allotted to it (one per character)
never run out and a failure of the lexer is at a position where the regexp
does not match; an attribute takes at least one token and a round of the
repetition `("," Attribute)*` at least two, and the repetition is cut at
`MaxIterations` = 1000000 rounds. `Parse` returns either a relation or an
error, never both, on every input of fewer than 2000003 characters or
tokens; it returns neither only when the call panics at the cap, which
takes an input that lexes to at least 2000003 tokens and happens for every
well-formed tree of more than 1000000 attributes written in the notation. -/
theorem C18_parse_total :
    (∀ (cs : List Char) (t : Option Token) (rest : List Char),
      matchRegexp cs = some (t, rest) → rest.length < cs.length) ∧
    (∀ (n : Nat) (cs : List Char), cs.length ≤ n → lexLoop n cs = tokenize cs) ∧
    (∀ (cs : List Char) (e : ParseError), tokenize cs = .error e →
      ∃ rest, e = .lex rest ∧ rest ≠ [] ∧ matchRegexp rest = none) ∧
    (∀ (ts rest : List Token) (a : Attribute),
      parseAttribute ts = .ok (a, rest) → rest.length < ts.length) ∧
    (∀ (n : Nat) (ts rest : List Token) (more : List Attribute),
      parseMoreAttributes n ts = .ok (more, rest) →
      more.length < n ∧ rest.length + 2 * more.length ≤ ts.length) ∧
    (∀ s : String, s.data.length < 2000003 →
      (∃ r, Parse s = .ok r) ∨ (∃ e, Parse s = .error e)) ∧
    (∀ (s : String) (ts : List Token), tokenize s.data = .ok ts → ts.length < 2000003 →
      (∃ r, Parse s = .ok r) ∨ (∃ e, Parse s = .error e)) ∧
    (∀ (s : String) (e : ParseError), tokenize s.data = .error e → Parse s = .error e) ∧
    (∀ (s : String) (r : RelationDefinition) (e : ParseError),
      Parse s = .ok r → Parse s ≠ .error e) ∧
    (∀ s : String, Parse s = .panic →
      ∃ ts, tokenize s.data = .ok ts ∧ 2000003 ≤ ts.length) ∧
    (∀ r : RelationDefinition, r.wellFormed = true → 1000000 < r.Attributes.length →
      Parse r.write = .panic) ∧
    MaxIterations = 1000000 := by
  have hm : 2 * MaxIterations + 3 = 2000003 := rfl
  have total : ∀ s : String, Parse s ≠ .panic →
      (∃ r, Parse s = .ok r) ∨ (∃ e, Parse s = .error e) := by
    intro s hs
    cases h : Parse s with
    | ok r => exact Or.inl ⟨r, rfl⟩
    | error e => exact Or.inr ⟨e, rfl⟩
    | panic => exact absurd h hs
  refine ⟨fun cs t rest h => matchRegexp_length h, ?_, ?_, fun ts rest a h =>
    parseAttribute_length h, fun n ts rest more h => parseMoreAttributes_ok_length n ts rest more h,
    ?_, ?_, fun s e h => Parse_lex_error h, ?_, ?_, ?_, rfl⟩
  · intro n cs hn
    exact lexLoop_fuel n cs.length cs hn (Nat.le_refl _)
  · intro cs e h
    obtain ⟨rest, h1, h2, h3, _⟩ := tokenize_error h
    exact ⟨rest, h1, h2, h3⟩
  · intro s hlen
    apply total
    intro hp
    obtain ⟨ts, _, h1, h2⟩ := Parse_panic_length hp
    omega
  · intro s ts hts hlen
    apply total
    intro hp
    obtain ⟨ts1, hts1, h1, _⟩ := Parse_panic_length hp
    rw [hts] at hts1
    cases hts1
    omega
  · intro s r e h1 h2
    rw [h1] at h2
    cases h2
  · intro s hp
    obtain ⟨ts, hts, h1, _⟩ := Parse_panic_length hp
    exact ⟨ts, hts, by omega⟩
  · intro r w hcap
    exact Parse_panic_of_tokens w hcap (tokenize_write r w)

/-- C18, amended, at `R(a,b)`: lexed with twice the rounds it needs, and
short enough to return a relation or an error. -/
theorem C18_parse_total_witness :
    lexLoop 12 "R(a,b)".data = tokenize "R(a,b)".data ∧
    ((∃ r, Parse "R(a,b)" = .ok r) ∨ (∃ e, Parse "R(a,b)" = .error e)) :=
  ⟨C18_parse_total.2.1 12 "R(a,b)".data (by decide),
   C18_parse_total.2.2.2.2.2.1 "R(a,b)" (by decide)⟩
end Rmlib
